import Mathlib

set_option linter.unusedVariables false

/-!
Shallow embedding of the llm-d inference scheduler's scheduling plugins:
the prefill/decode profile handler, the prefix store (rolling xxhash64
chain over prompt blocks with two-level LRU caches), the role filters,
the load-aware scorer, the active-request tracker, the session-affinity
and prefix-aware scorers, and the prefill-header pre-request hook.

Conventions used throughout:
* Go strings that are treated as byte sequences (prompts, hash inputs)
  are modelled as `List Nat` with each element < 256.
* Go `map` values are modelled as association lists (`List (key × value)`);
  a Go indexing read `m[k]` that defaults to the zero value is modelled by
  `getD` on the association-list lookup.
* Go `float64` arithmetic on scores and ratios is modelled exactly over `ℚ`;
  places where the Go code can produce NaN/Inf (division by a zero prompt
  length) are modelled explicitly and noted at the definition.
* Code paths that panic in Go (nil-pointer dereference, out-of-range index)
  are modelled by an `Option` result, `none` meaning the panic.
-/

/-- Association-list lookup: first binding of the key, mirroring a Go map
read with the `value, ok := m[k]` form. -/
def aLookup {α β : Type} [DecidableEq α] : List (α × β) → α → Option β
  | [], _ => none
  | (k, v) :: rest, key => if k = key then some v else aLookup rest key

/-- Association-list update: set the binding of a key, mirroring a Go map
assignment `m[k] = v`. -/
def aSet {α β : Type} [DecidableEq α] : List (α × β) → α → β → List (α × β)
  | [], key, v => [(key, v)]
  | (k, w) :: rest, key, v =>
      if k = key then (key, v) :: rest else (k, w) :: aSet rest key v

/-- Association-list removal of a key, mirroring Go `delete(m, k)`. -/
def aRemove {α β : Type} [DecidableEq α] (l : List (α × β)) (key : α) :
    List (α × β) :=
  l.filter (fun e => e.1 ≠ key)

@[simp] theorem aLookup_nil {α β : Type} [DecidableEq α] (key : α) :
    aLookup ([] : List (α × β)) key = none := rfl

@[simp] theorem aLookup_cons {α β : Type} [DecidableEq α] (k : α) (v : β)
    (rest : List (α × β)) (key : α) :
    aLookup ((k, v) :: rest) key =
      if k = key then some v else aLookup rest key := rfl

theorem aLookup_aRemove {α β : Type} [DecidableEq α]
    (l : List (α × β)) (key : α) : aLookup (aRemove l key) key = none := by
  induction l with
  | nil => rfl
  | cons e rest ih =>
      by_cases h : e.1 = key
      · simpa [aRemove, List.filter, h] using ih
      · simpa [aRemove, List.filter, h, aLookup] using ih

/-! ### xxHash64

Faithful model of the 64-bit xxHash algorithm as implemented by the
`github.com/cespare/xxhash/v2` library used by the prefix store.  All 64-bit
machine arithmetic is carried out on `Nat` reduced modulo `2 ^ 64`. -/

/-- Reduce to 64 bits, the wrap-around of Go `uint64` arithmetic. -/
def u64 (x : Nat) : Nat := x % (2 ^ 64)

/-- First xxHash64 prime. -/
def xxPrime1 : Nat := 11400714785074694791

/-- Second xxHash64 prime. -/
def xxPrime2 : Nat := 14029467366897019727

/-- Third xxHash64 prime. -/
def xxPrime3 : Nat := 1609587929392839161

/-- Fourth xxHash64 prime. -/
def xxPrime4 : Nat := 9650029242287828579

/-- Fifth xxHash64 prime. -/
def xxPrime5 : Nat := 2870177450012600261

/-- Rotate a 64-bit value left by `r` bits. -/
def xxRotl (x r : Nat) : Nat := u64 (x <<< r) ||| (u64 x >>> (64 - r))

/-- The xxHash64 accumulator round: `rotl31(acc + input*prime2) * prime1`. -/
def xxRound (acc input : Nat) : Nat :=
  u64 (xxRotl (u64 (acc + u64 (input * xxPrime2))) 31 * xxPrime1)

/-- The xxHash64 merge round used when folding the four stripe accumulators. -/
def xxMergeRound (acc val : Nat) : Nat :=
  u64 (u64 (acc ^^^ xxRound 0 val) * xxPrime1 + xxPrime4)

/-- The xxHash64 final avalanche mixing. -/
def xxAvalanche (h : Nat) : Nat :=
  let h1 := h ^^^ (h >>> 33)
  let h2 := u64 (h1 * xxPrime2)
  let h3 := h2 ^^^ (h2 >>> 29)
  let h4 := u64 (h3 * xxPrime3)
  h4 ^^^ (h4 >>> 32)

/-- Little-endian value of a byte list (first byte is least significant). -/
def leNat : List Nat → Nat
  | [] => 0
  | b :: rest => b + 256 * leNat rest

/-- The 8 little-endian bytes of a 64-bit value. -/
def le64Bytes (x : Nat) : List Nat :=
  [x % 256, x / 2 ^ 8 % 256, x / 2 ^ 16 % 256, x / 2 ^ 24 % 256,
   x / 2 ^ 32 % 256, x / 2 ^ 40 % 256, x / 2 ^ 48 % 256, x / 2 ^ 56 % 256]

/-- Tail loop of xxHash64 digest finalisation over the remaining single
bytes: `h = rotl11(h ^^^ b*prime5) * prime1` per byte, then avalanche. -/
def xxFinal1 (h : Nat) : List Nat → Nat
  | [] => xxAvalanche h
  | b :: rest =>
      xxFinal1 (u64 (xxRotl (h ^^^ u64 (b * xxPrime5)) 11 * xxPrime1)) rest

/-- Four-byte step of xxHash64 finalisation:
`h = rotl23(h ^^^ u32*prime1) * prime2 + prime3`, then the single bytes. -/
def xxFinal4 (h : Nat) : List Nat → Nat
  | b1 :: b2 :: b3 :: b4 :: rest =>
      xxFinal1
        (u64 (xxRotl (h ^^^ u64 (leNat [b1, b2, b3, b4] * xxPrime1)) 23 *
          xxPrime2 + xxPrime3)) rest
  | rest => xxFinal1 h rest

/-- Eight-byte steps of xxHash64 finalisation:
`h = rotl27(h ^^^ round(0, u64)) * prime1 + prime4` per full 8-byte chunk
of the sub-32-byte remainder, then the 4-byte and single-byte steps. -/
def xxFinal8 (h : Nat) : List Nat → Nat
  | b1 :: b2 :: b3 :: b4 :: b5 :: b6 :: b7 :: b8 :: rest =>
      xxFinal8
        (u64 (xxRotl (h ^^^ xxRound 0 (leNat [b1, b2, b3, b4, b5, b6, b7, b8]))
          27 * xxPrime1 + xxPrime4)) rest
  | rest => xxFinal4 h rest

/-- Main xxHash64 stripe loop: while at least 32 bytes remain, feed four
8-byte lanes into the four accumulators. Returns the accumulators and the
remaining bytes. -/
def xxLoop (v1 v2 v3 v4 : Nat) (bs : List Nat) :
    Nat × Nat × Nat × Nat × List Nat :=
  if _h : 32 ≤ bs.length then
    xxLoop (xxRound v1 (leNat (bs.take 8)))
      (xxRound v2 (leNat ((bs.drop 8).take 8)))
      (xxRound v3 (leNat ((bs.drop 16).take 8)))
      (xxRound v4 (leNat ((bs.drop 24).take 8)))
      (bs.drop 32)
  else (v1, v2, v3, v4, bs)
termination_by bs.length
decreasing_by simp only [List.length_drop]; omega

/-- One-shot xxHash64 of a byte sequence with the given seed. The streaming
digest used in the Go code (`digest.Reset`, writes, `Sum64`) computes exactly
this value on the concatenation of the written bytes. -/
def xxh64 (seed : Nat) (bs : List Nat) : Nat :=
  let n := bs.length
  if 32 ≤ n then
    let v1 := u64 (seed + xxPrime1 + xxPrime2)
    let v2 := u64 (seed + xxPrime2)
    let v3 := u64 seed
    let v4 := u64 (seed + (2 ^ 64 - xxPrime1))
    let r := xxLoop v1 v2 v3 v4 bs
    let h0 := u64 (xxRotl r.1 1 + xxRotl r.2.1 7 + xxRotl r.2.2.1 12 +
      xxRotl r.2.2.2.1 18)
    let h1 := xxMergeRound h0 r.1
    let h2 := xxMergeRound h1 r.2.1
    let h3 := xxMergeRound h2 r.2.2.1
    let h4 := xxMergeRound h3 r.2.2.2.1
    xxFinal8 (u64 (h4 + n)) r.2.2.2.2
  else
    xxFinal8 (u64 (u64 (seed + xxPrime5) + n)) bs

/-- Hash of one prompt block in the prefix store chain: the digest is reset,
fed the 8 little-endian bytes of the previous hash, then the block bytes
(`PrefixStore.AddEntry` / `PrefixStore.FindMatchingPods`). -/
def blockHash (prev : Nat) (blockBytes : List Nat) : Nat :=
  xxh64 0 (le64Bytes prev ++ blockBytes)

/-! ### Prefix store

Model of `PrefixStore` (`pkg/plugins/scorer/prefix_store.go`): a map from
model name to an LRU cache from block hash to a block, where a block is an
LRU cache from pod identifier to a last-seen timestamp.  LRU caches
(`hashicorp/golang-lru/v2`) are modelled as a capacity plus a list of
entries ordered most-recently-used first; timestamps carry no information
for the verified properties and are modelled as `Unit`. -/

/-- LRU cache model: bounded association list, most recently used first. -/
structure LruCache (α β : Type) where
  capacity : Nat
  entries : List (α × β)

/-- LRU lookup without recency update. `hashicorp` `Get` also moves the hit
entry to the front; the moves never change membership or stored values and
are irrelevant to every verified property, so lookups used purely for
reading are modelled without them. -/
def lruLookup {α β : Type} [DecidableEq α] (c : LruCache α β) (k : α) :
    Option β :=
  aLookup c.entries k

/-- LRU `Add`: insert or update a binding at the most-recent position and
evict the least recently used entry when the capacity is exceeded. -/
def lruAdd {α β : Type} [DecidableEq α] (c : LruCache α β) (k : α) (v : β) :
    LruCache α β :=
  { c with entries := ((k, v) :: aRemove c.entries k).take c.capacity }

/-- A block of the prefix store: the LRU set of pods that have served the
prompt prefix ending at this block (`block.Pods`). -/
def BlockM : Type := LruCache String Unit

/-- The per-model cache: LRU from 64-bit block hash to block. -/
def CacheM : Type := LruCache Nat BlockM

/-- Model of the `PrefixStore` structure: configuration plus the map from
model name to per-model LRU cache. -/
structure PrefixStoreM where
  cacheCapacity : Nat
  cacheBlockSize : Nat
  maxBlockPods : Nat
  store : List (String × CacheM)

/-- A fresh `PrefixStore` as returned by `NewPrefixStore`. -/
def newPrefixStore (cacheCapacity cacheBlockSize maxBlockPods : Nat) :
    PrefixStoreM :=
  { cacheCapacity := cacheCapacity
    cacheBlockSize := cacheBlockSize
    maxBlockPods := maxBlockPods
    store := [] }

/-- The block loop of `PrefixStore.AddEntry`: for each full block of the
prompt, chain the hash from the previous block's hash, fetch or create the
block, and add the pod to the block's pod LRU.  In Go the created block is
inserted before the pod is added through the shared pointer; the net cache
contents are as modelled here.  The loop is written with an explicit fuel
so that it is structurally recursive; callers pass `bytes.length`, which
the loop can never exhaust because every step consumes at least one byte.
The Go loop does not terminate when the configured block size is zero; this
model requires `0 < blockSize` to take a step. -/
def addEntryBlocks (blockSize maxBlockPods : Nat) (podName : String) :
    Nat → Nat → List Nat → CacheM → CacheM
  | 0, _, _, cache => cache
  | fuel + 1, prev, bytes, cache =>
    if 0 < blockSize ∧ blockSize ≤ bytes.length then
      let blk := bytes.take blockSize
      let hsh := blockHash prev blk
      let b : BlockM :=
        match lruLookup cache hsh with
        | some b0 => b0
        | none => { capacity := maxBlockPods, entries := [] }
      let cache' := lruAdd cache hsh (lruAdd b podName ())
      addEntryBlocks blockSize maxBlockPods podName fuel hsh
        (bytes.drop blockSize) cache'
    else cache

/-- Model of `PrefixStore.AddEntry`.  The pod argument is `Option` because
the Go receiver accepts a possibly-nil pointer and returns early on nil. -/
def addEntry (s : PrefixStoreM) (modelName : String) (prompt : List Nat)
    (pod : Option String) : PrefixStoreM :=
  match pod with
  | none => s
  | some podName =>
      if prompt = [] ∨ prompt.length < s.cacheBlockSize then s
      else
        let cache : CacheM :=
          match aLookup s.store modelName with
          | some c => c
          | none => { capacity := s.cacheCapacity, entries := [] }
        let cache' :=
          addEntryBlocks s.cacheBlockSize s.maxBlockPods podName
            prompt.length 0 prompt cache
        { s with store := aSet s.store modelName cache' }

/-- Increment a matched-pod counter, mirroring `matchedPods[pod.String()]++`
on a Go map. -/
def countsIncr (counts : List (String × Nat)) (podName : String) :
    List (String × Nat) :=
  match aLookup counts podName with
  | some n => aSet counts podName (n + 1)
  | none => aSet counts podName 1

/-- The block loop of `PrefixStore.FindMatchingPods`: walk the same hash
chain, stop at the first block hash absent from the cache, and for each
present block increment every resident pod's counter.  Written with fuel
like `addEntryBlocks`; callers pass `bytes.length`. -/
def findBlocks (blockSize : Nat) (cache : CacheM) :
    Nat → Nat → List Nat → List (String × Nat) → List (String × Nat)
  | 0, _, _, acc => acc
  | fuel + 1, prev, bytes, acc =>
    if 0 < blockSize ∧ blockSize ≤ bytes.length then
      let blk := bytes.take blockSize
      let hsh := blockHash prev blk
      match lruLookup cache hsh with
      | none => acc
      | some b =>
          findBlocks blockSize cache fuel hsh (bytes.drop blockSize)
            (b.entries.foldl (fun m e => countsIncr m e.1) acc)
    else acc

/-- Model of `PrefixStore.FindMatchingPods`; `none` models the Go `nil` map
returned on an empty prompt, empty model name, under-size prompt, or a model
with no cache. -/
def findMatchingPods (s : PrefixStoreM) (prompt : List Nat)
    (modelName : String) : Option (List (String × Nat)) :=
  if prompt = [] ∨ modelName = "" ∨ prompt.length < s.cacheBlockSize then none
  else
    match aLookup s.store modelName with
    | none => none
    | some cache =>
        some (findBlocks s.cacheBlockSize cache prompt.length 0 prompt [])

/-- Hit count of one pod in a `FindMatchingPods` result (`none` when the pod
is absent or the whole result is `nil`). -/
def findCount (r : Option (List (String × Nat))) (podName : String) :
    Option Nat :=
  r.bind (fun counts => aLookup counts podName)

/-- The sequence of block hashes computed by the loops of
`PrefixStore.AddEntry` and `PrefixStore.FindMatchingPods`, starting from the
previous-hash seed `prev`.  Written with the same fuel discipline as the
loops it describes. -/
def chainFrom (blockSize : Nat) : Nat → Nat → List Nat → List Nat
  | 0, _, _ => []
  | fuel + 1, prev, bytes =>
    if 0 < blockSize ∧ blockSize ≤ bytes.length then
      let hsh := blockHash prev (bytes.take blockSize)
      hsh :: chainFrom blockSize fuel hsh (bytes.drop blockSize)
    else []

/-- The hash chain computed by `PrefixStore.AddEntry` for a given model name
and prompt.  The loop initialises `previousHash` to `0` and never feeds the
model name into the digest: the model name only selects the per-model cache
`s.store[modelName]`, so the chain does not depend on it. -/
def addEntryHashChain (modelName : String) (blockSize : Nat)
    (prompt : List Nat) : List Nat :=
  chainFrom blockSize prompt.length 0 prompt

/-! ### Prefill/decode profile handler

Model of `PdProfileHandler` (`pkg/plugins/profile/pd_profile_handler.go`).
Scheduler profiles are identified by name; the profile objects carried in
the Go maps are opaque to the handler, so `Pick` is modelled as returning
the list of names of the picked profiles. -/

/-- A chosen target pod: its namespaced-name identity and its address. -/
structure TargetPodM where
  name : String
  address : String
deriving DecidableEq

/-- Model of `ProfileRunResult`: the ordered pods chosen by one profile. -/
structure ProfileRunResultM where
  targetPods : List TargetPodM
deriving DecidableEq

/-- Model of `SchedulingResult`. -/
structure SchedulingResultM where
  primaryProfileName : String
  profileResults : List (String × Option ProfileRunResultM)
deriving DecidableEq

/-- Model of the `PdProfileHandler` configuration fields used by `Pick` and
`ProcessResults`. -/
structure PdProfileHandlerM where
  decodeProfile : String
  prefillProfile : String
  pdThreshold : Int
  hashBlockSize : Int

/-- Go map read defaulting to zero: `prefixState.PrefixCacheServers[pod]`. -/
def hitsOf (st : List (String × Int)) (podName : String) : Int :=
  (aLookup st podName).getD 0

/-- Model of `PdProfileHandler.Pick`.

* `prefixState` is the prefix plugin's CycleState entry
  (`PrefixCacheServers : pod → hits`); `none` models the read failing, in
  which case the Go code logs and keeps `hitPercentagePrefix = 0`.
* `profiles` is the list of configured profile names, `profileResults` the
  results recorded so far (a `none` value records a failed profile run).
* The result is `none` when the Go code panics (indexing `TargetPods[0]` on
  an empty slice), otherwise the list of profile names picked to run.
* The Go comparison `(1.0-hitPercentagePrefix)*float64(len(prompt)) <
  float64(threshold)` is carried out in `float64`; it is modelled exactly
  over `ℚ`.  When `len(prompt) = 0` the Go division yields NaN or +Inf and
  the comparison is false; that case is modelled explicitly. -/
def pick (h : PdProfileHandlerM) (prefixState : Option (List (String × Int)))
    (promptLen : Nat) (profiles : List String)
    (profileResults : List (String × Option ProfileRunResultM)) :
    Option (List String) :=
  match aLookup profileResults h.decodeProfile with
  | none => some [h.decodeProfile]
  | some decodeResult =>
      if profiles.length = profileResults.length ∨ decodeResult = none then
        some []
      else
        if 0 < h.pdThreshold then
          match prefixState with
          | none =>
              if ((1 : ℚ) - 0) * (promptLen : ℚ) < (h.pdThreshold : ℚ) then
                some []
              else some [h.prefillProfile]
          | some st =>
              match decodeResult with
              | none => none
              | some dr =>
                  match dr.targetPods with
                  | [] => none
                  | decodePod :: _ =>
                      let hitBlocks : Int := max (hitsOf st decodePod.name - 1) 0
                      if promptLen = 0 then some [h.prefillProfile]
                      else
                        let hitPct : ℚ :=
                          ((hitBlocks * h.hashBlockSize : Int) : ℚ) /
                            (promptLen : ℚ)
                        if (1 - hitPct) * (promptLen : ℚ) <
                            (h.pdThreshold : ℚ) then some []
                        else some [h.prefillProfile]
        else some [h.prefillProfile]

/-- Go map read with nil default on a map whose values are pointers:
`profileResults[k]` is nil both when the key is absent and when a nil value
was recorded. -/
def resultOf (profileResults : List (String × Option ProfileRunResultM))
    (k : String) : Option ProfileRunResultM :=
  (aLookup profileResults k).join

/-- Model of `PdProfileHandler.ProcessResults`. -/
def processResults (h : PdProfileHandlerM)
    (profileResults : List (String × Option ProfileRunResultM)) :
    Except String SchedulingResultM :=
  match resultOf profileResults h.decodeProfile with
  | none => .error "failed to find available decode workers"
  | some decodeR =>
      match aLookup profileResults h.prefillProfile with
      | some (some _) =>
          .ok { primaryProfileName := h.decodeProfile
                profileResults := profileResults }
      | _ =>
          .ok { primaryProfileName := h.decodeProfile
                profileResults := [(h.decodeProfile, some decodeR)] }

/-- For duplicate-free name lists related by inclusion, equality of lengths
says exactly that every configured profile carries a result. -/
theorem length_eq_iff_all_mem {keys profiles : List String}
    (hsub : ∀ k ∈ keys, k ∈ profiles) (hk : keys.Nodup)
    (hp : profiles.Nodup) :
    profiles.length = keys.length ↔ ∀ p ∈ profiles, p ∈ keys := by
  have hKP : keys.toFinset ⊆ profiles.toFinset := by
    intro x hx
    exact List.mem_toFinset.mpr (hsub x (List.mem_toFinset.mp hx))
  constructor
  · intro hlen p hpmem
    have hcard : profiles.toFinset.card ≤ keys.toFinset.card := by
      rw [List.toFinset_card_of_nodup hk, List.toFinset_card_of_nodup hp]
      exact hlen.le
    have heq := Finset.eq_of_subset_of_card_le hKP hcard
    exact List.mem_toFinset.mp (heq ▸ List.mem_toFinset.mpr hpmem)
  · intro hall
    have hPK : profiles.toFinset ⊆ keys.toFinset := by
      intro x hx
      exact List.mem_toFinset.mpr (hall x (List.mem_toFinset.mp hx))
    have := Finset.Subset.antisymm hKP hPK
    rw [← List.toFinset_card_of_nodup hk, ← List.toFinset_card_of_nodup hp,
      this]

/-- C1: `PdProfileHandler.Pick` returns `{decode}` when the decode profile
has no recorded result; returns the empty set when the decode result is nil
or when every configured profile already has a result; otherwise, letting
`hitBlocks = max(blockHits[decodePod] − 1, 0)` from the prefix scorer's
CycleState entry and `ρ = 1 − (hitBlocks·B)/len(prompt)`, it returns the
empty set exactly when `ρ·len(prompt) < T` and `{prefill}` otherwise.
Stated for well-formed inputs: duplicate-free profile and result name lists
with result names drawn from the configured profiles, a readable prefix
state, a non-empty prompt, a successful decode result with a first target
pod, and recorded block hits covering at most the whole prompt. -/
theorem pdPick_spec (h : PdProfileHandlerM) (st : List (String × Int))
    (promptLen : Nat) (profiles : List String)
    (results : List (String × Option ProfileRunResultM))
    (hKeysSub : ∀ k ∈ results.map Prod.fst, k ∈ profiles)
    (hKeysNodup : (results.map Prod.fst).Nodup)
    (hProfNodup : profiles.Nodup) :
    (aLookup results h.decodeProfile = none →
      pick h (some st) promptLen profiles results = some [h.decodeProfile]) ∧
    (∀ r, aLookup results h.decodeProfile = some r →
      ((∀ p ∈ profiles, p ∈ results.map Prod.fst) ∨ r = none) →
      pick h (some st) promptLen profiles results = some []) ∧
    (∀ dr decodePod restPods,
      aLookup results h.decodeProfile = some (some dr) →
      dr.targetPods = decodePod :: restPods →
      ¬ (∀ p ∈ profiles, p ∈ results.map Prod.fst) →
      0 < promptLen →
      max (hitsOf st decodePod.name - 1) 0 * h.hashBlockSize ≤
        (promptLen : Int) →
      ((pick h (some st) promptLen profiles results = some [] ↔
        (1 - ((max (hitsOf st decodePod.name - 1) 0 * h.hashBlockSize : Int) :
          ℚ) / (promptLen : ℚ)) * (promptLen : ℚ) < (h.pdThreshold : ℚ)) ∧
      (pick h (some st) promptLen profiles results = some [h.prefillProfile] ↔
        ¬ (1 - ((max (hitsOf st decodePod.name - 1) 0 * h.hashBlockSize :
          Int) : ℚ) / (promptLen : ℚ)) * (promptLen : ℚ) <
            (h.pdThreshold : ℚ)))) := by
  have hlen := length_eq_iff_all_mem hKeysSub hKeysNodup hProfNodup
  have hlen' : profiles.length = results.length ↔
      ∀ p ∈ profiles, p ∈ results.map Prod.fst := by
    simpa [List.length_map] using hlen
  refine ⟨?_, ?_, ?_⟩
  · intro hnone
    simp [pick, hnone]
  · intro r hr hcase
    have hcond : profiles.length = results.length ∨ r = none := by
      rcases hcase with hall | hnil
      · exact Or.inl (hlen'.mpr hall)
      · exact Or.inr hnil
    simp [pick, hr, hcond]
  · intro dr decodePod restPods hr hpods hnotall hlenpos hcover
    have hlne : profiles.length ≠ results.length := fun hl =>
      hnotall (hlen'.mp hl)
    set x : Int := max (hitsOf st decodePod.name - 1) 0 * h.hashBlockSize
      with hx
    have hplen0 : promptLen ≠ 0 := Nat.pos_iff_ne_zero.mp hlenpos
    have hplenQ : ((promptLen : ℚ)) ≠ 0 := by
      exact_mod_cast hplen0
    by_cases hT : 0 < h.pdThreshold
    · -- the threshold gate is active; the Go comparison is the claim's
      by_cases hcmp : (1 - ((x : Int) : ℚ) / (promptLen : ℚ)) *
          (promptLen : ℚ) < (h.pdThreshold : ℚ)
      · constructor
        · simp [pick, hr, hlne, hT, hpods, hplen0, ← hx, hcmp]
        · constructor
          · intro hEq
            exact absurd hEq (by simp [pick, hr, hlne, hT, hpods, hplen0,
              ← hx, hcmp])
          · intro hn
            exact absurd hcmp hn
      · constructor
        · constructor
          · intro hEq
            have : pick h (some st) promptLen profiles results =
                some [h.prefillProfile] := by
              simp [pick, hr, hlne, hT, hpods, hplen0, ← hx, hcmp]
            rw [this] at hEq
            simp at hEq
          · intro hc
            exact absurd hc hcmp
        · simp [pick, hr, hlne, hT, hpods, hplen0, ← hx, hcmp]
    · -- threshold not positive: the gate is skipped and the claim's
      -- condition is false because the non-cached suffix is non-negative
      have hnotcmp : ¬ (1 - ((x : Int) : ℚ) / (promptLen : ℚ)) *
          (promptLen : ℚ) < (h.pdThreshold : ℚ) := by
      -- (1 − x/len)·len = len − x ≥ 0 ≥ T
        have hxle : ((x : Int) : ℚ) ≤ (promptLen : ℚ) := by
          exact_mod_cast hcover
        have hTle : (h.pdThreshold : ℚ) ≤ 0 := by
          have : h.pdThreshold ≤ 0 := not_lt.mp hT
          exact_mod_cast this
        have hprod : (1 - ((x : Int) : ℚ) / (promptLen : ℚ)) *
            (promptLen : ℚ) = (promptLen : ℚ) - ((x : Int) : ℚ) := by
          field_simp
        rw [hprod]
        push_neg
        linarith
      constructor
      · constructor
        · intro hEq
          have : pick h (some st) promptLen profiles results =
              some [h.prefillProfile] := by
            simp [pick, hr, hlne, hT]
          rw [this] at hEq
          simp at hEq
        · intro hc
          exact absurd hc hnotcmp
      · constructor
        · intro _
          exact hnotcmp
        · intro _
          simp [pick, hr, hlne, hT]

/-- Closed instance of `pdPick_spec`: threshold 5, block size 4, 3 recorded
hits on the decode pod and a 20-byte prompt leave a 12-byte non-cached
suffix, so prefill runs. -/
theorem pdPick_spec_witness :
    pick ⟨"decode", "prefill", 5, 4⟩ (some [("p", 3)]) 20
      ["decode", "prefill"] [("decode", some ⟨[⟨"p", "a"⟩]⟩)] =
      some ["prefill"] := by
  have hm := (pdPick_spec ⟨"decode", "prefill", 5, 4⟩ [("p", 3)] 20
    ["decode", "prefill"] [("decode", some ⟨[⟨"p", "a"⟩]⟩)]
    (by decide) (by decide) (by decide)).2.2 ⟨[⟨"p", "a"⟩]⟩ ⟨"p", "a"⟩ []
    rfl rfl (by decide) (by decide) (by decide)
  refine hm.2.mpr ?_
  have h3 : hitsOf [("p", 3)] "p" = 3 := by decide
  rw [h3]
  norm_num

/-- C2: `PdProfileHandler.ProcessResults` errs exactly when the decode
result is nil (absent or recorded as a failed run); whenever decode
succeeded it returns a result whose primary profile is decode, containing
the decode result, and containing the prefill result exactly when prefill
ran and succeeded — otherwise the decode result alone.  A prefill failure
never produces an error. -/
theorem pdProcessResults_spec (h : PdProfileHandlerM)
    (results : List (String × Option ProfileRunResultM)) :
    ((∃ e, processResults h results = .error e) ↔
      resultOf results h.decodeProfile = none) ∧
    (∀ dr, resultOf results h.decodeProfile = some dr →
      ∃ sr, processResults h results = .ok sr ∧
        sr.primaryProfileName = h.decodeProfile ∧
        resultOf sr.profileResults h.decodeProfile = some dr ∧
        ((∃ pr, aLookup results h.prefillProfile = some (some pr)) →
          aLookup sr.profileResults h.prefillProfile =
            aLookup results h.prefillProfile) ∧
        ((¬ ∃ pr, aLookup results h.prefillProfile = some (some pr)) →
          sr.profileResults = [(h.decodeProfile, some dr)])) := by
  constructor
  · constructor
    · rintro ⟨e, he⟩
      by_contra hne
      rcases Option.ne_none_iff_exists'.mp hne with ⟨dr, hdr⟩
      rcases hpre : aLookup results h.prefillProfile with _ | pr
      · simp [processResults, hdr, hpre] at he
      · rcases pr with _ | pr0
        · simp [processResults, hdr, hpre] at he
        · simp [processResults, hdr, hpre] at he
    · intro hnil
      exact ⟨"failed to find available decode workers",
        by simp [processResults, hnil]⟩
  · intro dr hdr
    rcases hpre : aLookup results h.prefillProfile with _ | pr
    · refine ⟨⟨h.decodeProfile, [(h.decodeProfile, some dr)]⟩,
        by simp [processResults, hdr, hpre], rfl, ?_, ?_, ?_⟩
      · simp [resultOf, aLookup]
      · rintro ⟨pr, hpr⟩
        exact absurd hpr (by simp)
      · intro _
        rfl
    · rcases pr with _ | pr0
      · refine ⟨⟨h.decodeProfile, [(h.decodeProfile, some dr)]⟩,
          by simp [processResults, hdr, hpre], rfl, ?_, ?_, ?_⟩
        · simp [resultOf, aLookup]
        · rintro ⟨pr, hpr⟩
          exact absurd hpr (by simp)
        · intro _
          rfl
      · refine ⟨⟨h.decodeProfile, results⟩,
          by simp [processResults, hdr, hpre], rfl, hdr, ?_, ?_⟩
        · intro _
          exact hpre
        · intro hno
          exact absurd ⟨pr0, rfl⟩ hno

/-- Closed instance of `pdProcessResults_spec`: with a failed prefill run
recorded, the scheduling result carries the decode result alone with
primary decode, and no error is produced. -/
theorem pdProcessResults_spec_witness :
    ∃ sr, processResults (⟨"decode", "prefill", 0, 4⟩ : PdProfileHandlerM)
      [("decode", some ⟨[⟨"p", "a"⟩]⟩), ("prefill", none)] = .ok sr ∧
      sr.primaryProfileName = "decode" ∧
      resultOf sr.profileResults "decode" = some ⟨[⟨"p", "a"⟩]⟩ ∧
      sr.profileResults = [("decode", some ⟨[⟨"p", "a"⟩]⟩)] := by
  have hm := (pdProcessResults_spec ⟨"decode", "prefill", 0, 4⟩
    [("decode", some ⟨[⟨"p", "a"⟩]⟩), ("prefill", none)]).2
    ⟨[⟨"p", "a"⟩]⟩ (by decide)
  rcases hm with ⟨sr, hok, hprim, hdec, hboth, halone⟩
  refine ⟨sr, hok, hprim, hdec, halone ?_⟩
  rintro ⟨pr, hpr⟩
  simp [aLookup] at hpr



/-! ### Prefill / decode role filters

Model of `PrefillFilter.Filter` and `DecodeFilter.Filter`
(`pkg/plugins/filter/pd_role_filter.go`). -/

/-- A candidate pod as seen by the filters: identity plus labels. -/
structure PodM where
  name : String
  labels : List (String × String)
deriving DecidableEq

/-- The role label key `llm-d.ai/role`. -/
def roleLabel : String := "llm-d.ai/role"

/-- Go map read without the ok flag: absent keys give the zero value "". -/
def labelGetD (labels : List (String × String)) (key : String) : String :=
  (aLookup labels key).getD ""

/-- Model of `PrefillFilter.Filter`: keep the pods whose role label reads
`"prefill"` (an absent label reads as `""`). -/
def prefillFilter (pods : List PodM) : List PodM :=
  pods.filter (fun pod => labelGetD pod.labels roleLabel = "prefill")

/-- Model of `DecodeFilter.Filter`: keep the pods whose role label is
absent, `"decode"`, or `"both"` (the Go code uses the `value, defined`
map-read form). -/
def decodeFilter (pods : List PodM) : List PodM :=
  pods.filter (fun pod =>
    aLookup pod.labels roleLabel = none ∨
      aLookup pod.labels roleLabel = some "decode" ∨
      aLookup pod.labels roleLabel = some "both")

/-- C5: `PrefillFilter.Filter` keeps exactly the pods whose `llm-d.ai/role`
label has value `"prefill"` (pods labelled `"both"` or unlabelled are
dropped); `DecodeFilter.Filter` keeps exactly the pods whose role label is
absent or reads `"decode"` or `"both"`; both preserve the relative order of
the kept pods (the outputs are sublists of the input). -/
theorem pdRoleFilters_spec (pods : List PodM) :
    (∀ pod, pod ∈ prefillFilter pods ↔
      pod ∈ pods ∧ aLookup pod.labels roleLabel = some "prefill") ∧
    (∀ pod, pod ∈ decodeFilter pods ↔
      pod ∈ pods ∧ (aLookup pod.labels roleLabel = none ∨
        aLookup pod.labels roleLabel = some "decode" ∨
        aLookup pod.labels roleLabel = some "both")) ∧
    (prefillFilter pods).Sublist pods ∧ (decodeFilter pods).Sublist pods := by
  refine ⟨?_, ?_, List.filter_sublist pods, List.filter_sublist pods⟩
  · intro pod
    rw [prefillFilter, List.mem_filter]
    constructor
    · rintro ⟨hmem, hp⟩
      refine ⟨hmem, ?_⟩
      have hp' : labelGetD pod.labels roleLabel = "prefill" := by
        simpa using hp
      rcases hl : aLookup pod.labels roleLabel with _ | v
      · rw [labelGetD, hl] at hp'
        simp at hp'
      · rw [labelGetD, hl] at hp'
        simpa using congrArg some hp'
    · rintro ⟨hmem, hl⟩
      exact ⟨hmem, by simp [labelGetD, hl]⟩
  · intro pod
    rw [decodeFilter, List.mem_filter]
    constructor
    · rintro ⟨hmem, hp⟩
      exact ⟨hmem, by simpa using hp⟩
    · rintro ⟨hmem, hl⟩
      exact ⟨hmem, by simpa using hl⟩

/-! ### Load-aware scorer

Model of `LoadAwareScorer.Score` (`pkg/plugins/scorer/load_aware_scorer.go`).
The Go code converts the waiting-queue size and the threshold to `float64`;
the arithmetic is modelled exactly over `ℚ`. -/

/-- The default queue threshold `QueueThresholdDefault`. -/
def queueThresholdDefault : Int := 128

/-- Model of the per-pod score computed by `LoadAwareScorer.Score`:
`0.5` for an empty queue, else `0.5 * (1 - min(q, Q)/Q)` with the queue
size clamped at the threshold. -/
def loadAwareScore (queueThreshold : ℚ) (q : Int) : ℚ :=
  let waitingRequests : ℚ := (q : ℚ)
  if waitingRequests = 0 then 1 / 2
  else
    let clamped := if waitingRequests > queueThreshold then queueThreshold
      else waitingRequests
    1 / 2 * (1 - clamped / queueThreshold)

/-- Model of the scoring loop of `LoadAwareScorer.Score` over a pod list
carrying waiting-queue sizes. -/
def loadAwareScorePods (queueThreshold : ℚ) (pods : List (String × Int)) :
    List (String × ℚ) :=
  pods.map (fun pod => (pod.1, loadAwareScore queueThreshold pod.2))

/-- C6: every pod with waiting-queue size `q` is scored `0.5` if `q = 0`
and `0.5·(1 − min(q,Q)/Q)` otherwise; for non-negative queue sizes and a
positive threshold every score lies in `[0, 1/2] ⊆ [0, 1]`, reaching `0`
exactly when `q ≥ Q`; the default threshold is 128. -/
theorem loadAwareScore_spec (Q : ℚ) (q : Int) (hQ : 0 < Q) (hq : 0 ≤ q) :
    (loadAwareScore Q q =
      if q = 0 then 1 / 2 else 1 / 2 * (1 - min (q : ℚ) Q / Q)) ∧
    0 ≤ loadAwareScore Q q ∧ loadAwareScore Q q ≤ 1 / 2 ∧
    (loadAwareScore Q q = 0 ↔ Q ≤ (q : ℚ)) ∧
    queueThresholdDefault = 128 := by
  have hQ0 : Q ≠ 0 := ne_of_gt hQ
  by_cases h0 : q = 0
  · subst h0
    refine ⟨by simp [loadAwareScore], by norm_num [loadAwareScore],
      by norm_num [loadAwareScore], ?_, rfl⟩
    constructor
    · intro habs
      norm_num [loadAwareScore] at habs
    · intro hle
      exact absurd (lt_of_lt_of_le hQ (by simpa using hle)) (by norm_num)
  · have hqQ : ((q : ℚ)) ≠ 0 := by
      exact_mod_cast h0
    have hform : loadAwareScore Q q = 1 / 2 * (1 - min (q : ℚ) Q / Q) := by
      rw [loadAwareScore]
      simp only [hqQ, if_false]
      by_cases hgt : (q : ℚ) > Q
      · rw [if_pos hgt, min_eq_right (le_of_lt hgt)]
      · rw [if_neg hgt, min_eq_left (not_lt.mp hgt)]
    have hminpos : 0 ≤ min (q : ℚ) Q := le_min (by exact_mod_cast hq)
      (le_of_lt hQ)
    have hminle : min (q : ℚ) Q / Q ≤ 1 := by
      rw [div_le_one hQ]
      exact min_le_right _ _
    refine ⟨by rw [hform, if_neg h0], ?_, ?_, ?_, rfl⟩
    · rw [hform]
      have : min (q : ℚ) Q / Q ≤ 1 := hminle
      nlinarith
    · rw [hform]
      have : 0 ≤ min (q : ℚ) Q / Q := div_nonneg hminpos (le_of_lt hQ)
      nlinarith
    · rw [hform]
      constructor
      · intro hzero
        have h1 : min (q : ℚ) Q / Q = 1 := by nlinarith
        field_simp at h1
        exact h1
      · intro hle
        rw [min_eq_right hle, div_self hQ0]
        ring

/-- Closed instance of `loadAwareScore_spec` at the default threshold and a
queue of length 2. -/
theorem loadAwareScore_spec_witness :
    loadAwareScore 128 2 =
      (if (2 : Int) = 0 then 1 / 2 else
        1 / 2 * (1 - min ((2 : Int) : ℚ) 128 / 128)) ∧
    (0 : ℚ) ≤ loadAwareScore 128 2 ∧ loadAwareScore 128 2 ≤ 1 / 2 := by
  have hm := loadAwareScore_spec 128 2 (by norm_num) (by norm_num)
  exact ⟨hm.1, hm.2.1, hm.2.2.1⟩

/-! ### Prefix store lemmas and the prefix-store claims -/


/-- Removing bindings for another key does not change a lookup. -/
theorem aLookup_aRemove_ne {α β : Type} [DecidableEq α] (l : List (α × β))
    (h k : α) (hne : k ≠ h) :
    aLookup (aRemove l h) k = aLookup l k := by
  induction l with
  | nil => rfl
  | cons e rest ih =>
      rcases e with ⟨k0, v0⟩
      by_cases hk0 : k0 = h
      · have hkk : ¬ k0 = k := fun hx => hne (hx ▸ hk0)
        simp only [aRemove, List.filter_cons] at ih ⊢
        rw [if_neg (by simp [hk0]), ih, aLookup, if_neg hkk]
      · simp only [aRemove, List.filter_cons] at ih ⊢
        rw [if_pos (by simp [hk0])]
        by_cases hkk : k0 = k
        · rw [aLookup, if_pos hkk, aLookup, if_pos hkk]
        · rw [aLookup, if_neg hkk, aLookup, if_neg hkk, ih]

/-- A successful lookup comes from a binding in the list. -/
theorem aLookup_mem {α β : Type} [DecidableEq α] (l : List (α × β)) (key : α)
    (v : β) (h : aLookup l key = some v) : (key, v) ∈ l := by
  induction l with
  | nil => simp [aLookup] at h
  | cons e rest ih =>
      rcases e with ⟨k, w⟩
      rw [aLookup_cons] at h
      by_cases hk : k = key
      · rw [if_pos hk] at h
        subst hk
        cases h
        exact List.mem_cons_self _ _
      · rw [if_neg hk] at h
        exact List.mem_cons_of_mem _ (ih h)

/-- Looking up the key just set returns the value just set. -/
theorem aLookup_aSet {α β : Type} [DecidableEq α] (l : List (α × β)) (key : α)
    (v : β) : aLookup (aSet l key v) key = some v := by
  induction l with
  | nil => simp [aSet, aLookup]
  | cons e rest ih =>
      rcases e with ⟨k, w⟩
      by_cases hk : k = key
      · simp [aSet, hk, aLookup]
      · simp [aSet, hk, aLookup, ih]

/-- Incrementing a pod's counter adds one to its looked-up value. -/
theorem countsIncr_lookup (acc : List (String × Nat)) (podName : String) :
    aLookup (countsIncr acc podName) podName =
      some ((aLookup acc podName).getD 0 + 1) := by
  rw [countsIncr]
  rcases h : aLookup acc podName with _ | n
  · simpa using aLookup_aSet acc podName 1
  · simpa using aLookup_aSet acc podName (n + 1)

/-- An `Add` below capacity evicts nothing. -/
theorem lruAdd_no_evict {α β : Type} [DecidableEq α] (c : LruCache α β)
    (k : α) (v : β) (h : c.entries.length + 1 ≤ c.capacity) :
    (lruAdd c k v).entries = (k, v) :: aRemove c.entries k ∧
    (lruAdd c k v).capacity = c.capacity := by
  refine ⟨?_, rfl⟩
  rw [lruAdd]
  apply List.take_of_length_le
  rw [List.length_cons]
  have hfl : (aRemove c.entries k).length ≤ c.entries.length :=
    List.length_filter_le _ _
  omega

/-- Adding a pod to an empty block or to a block that already holds exactly
that pod yields a block holding exactly that pod. -/
theorem lruAdd_block (b : BlockM) (podName : String) (hmp : 1 ≤ b.capacity)
    (hb : b.entries = [] ∨ b.entries = [(podName, ())]) :
    (lruAdd b podName ()).entries = [(podName, ())] ∧
    (lruAdd b podName ()).capacity = b.capacity := by
  refine ⟨?_, rfl⟩
  rcases hb with hb | hb
  · rw [lruAdd, hb]
    simp only [aRemove, List.filter_nil]
    apply List.take_of_length_le
    simpa using hmp
  · rw [lruAdd, hb]
    have : aRemove [(podName, ())] podName = [] := by
      simp [aRemove]
    rw [this]
    apply List.take_of_length_le
    simpa using hmp

/-- The number of full blocks walked by the chain equals
`bytes.length / blockSize`, provided the fuel covers the bytes. -/
theorem chainFrom_length (blockSize : Nat) (hbs : 0 < blockSize) :
    ∀ (fuel : Nat) (prev : Nat) (bytes : List Nat),
      bytes.length ≤ fuel →
      (chainFrom blockSize fuel prev bytes).length =
        bytes.length / blockSize := by
  intro fuel
  induction fuel with
  | zero =>
      intro prev bytes hlen
      have h0 : bytes.length = 0 := Nat.le_zero.mp hlen
      rw [chainFrom, h0, Nat.zero_div]
      rfl
  | succ fuel ih =>
      intro prev bytes hlen
      rw [chainFrom]
      by_cases hc : 0 < blockSize ∧ blockSize ≤ bytes.length
      · rw [if_pos hc]
        have hdrop : (bytes.drop blockSize).length ≤ fuel := by
          rw [List.length_drop]
          omega
        have := ih (blockHash prev (bytes.take blockSize))
          (bytes.drop blockSize) hdrop
        rw [List.length_cons, this, List.length_drop]
        rw [Nat.div_eq bytes.length blockSize, if_pos hc]
      · rw [if_neg hc]
        have hlt : bytes.length < blockSize := by
          rcases Decidable.not_and_iff_or_not.mp hc with h1 | h2
          · exact absurd hbs h1
          · exact Nat.lt_of_not_le h2
        rw [List.length_nil, Nat.div_eq_of_lt hlt]

/-- Invariants of the `AddEntry` block loop: starting from a cache whose
blocks all hold exactly the inserted pod and whose capacity has room for
every block of the prompt, the loop evicts nothing; it keeps every block at
exactly the inserted pod, preserves present keys, inserts every hash of the
chain, keeps the capacity, and grows the entry list by at most the number
of blocks. -/
theorem addEntryBlocks_invariant (blockSize maxPods : Nat) (podName : String)
    (hbs : 0 < blockSize) (hmp : 1 ≤ maxPods) :
    ∀ (fuel : Nat) (prev : Nat) (bytes : List Nat) (cache : CacheM),
      (∀ e ∈ cache.entries,
        (e.2 : BlockM).capacity = maxPods ∧
        (e.2 : BlockM).entries = [(podName, ())]) →
      cache.entries.length + bytes.length / blockSize ≤ cache.capacity →
      ((∀ e ∈ (addEntryBlocks blockSize maxPods podName fuel prev bytes
          cache).entries,
        (e.2 : BlockM).capacity = maxPods ∧
        (e.2 : BlockM).entries = [(podName, ())]) ∧
       (addEntryBlocks blockSize maxPods podName fuel prev bytes
         cache).capacity = cache.capacity ∧
       (∀ k, aLookup cache.entries k ≠ none →
         aLookup (addEntryBlocks blockSize maxPods podName fuel prev bytes
           cache).entries k ≠ none) ∧
       (∀ hsh ∈ chainFrom blockSize fuel prev bytes,
         aLookup (addEntryBlocks blockSize maxPods podName fuel prev bytes
           cache).entries hsh ≠ none) ∧
       (addEntryBlocks blockSize maxPods podName fuel prev bytes
         cache).entries.length ≤
           cache.entries.length + bytes.length / blockSize) := by
  intro fuel
  induction fuel with
  | zero =>
      intro prev bytes cache hI1 hcap
      refine ⟨hI1, rfl, fun k hk => hk, ?_, Nat.le_add_right _ _⟩
      intro hsh hmem
      simp [chainFrom] at hmem
  | succ fuel ih =>
      intro prev bytes cache hI1 hcap
      rw [addEntryBlocks, chainFrom]
      by_cases hc : 0 < blockSize ∧ blockSize ≤ bytes.length
      · rw [if_pos hc, if_pos hc]
        simp only []
        set hsh := blockHash prev (bytes.take blockSize) with hhsh
        set b : BlockM :=
          (match lruLookup cache hsh with
           | some b0 => b0
           | none => { capacity := maxPods, entries := [] }) with hb
        -- the block that gets stored holds exactly the inserted pod
        have hbprops : (lruAdd b podName ()).entries = [(podName, ())] ∧
            (lruAdd b podName ()).capacity = maxPods := by
          rcases hlk : lruLookup cache hsh with _ | b0
          · rw [hb, hlk]
            have := lruAdd_block ⟨maxPods, []⟩ podName (by simpa using hmp)
              (Or.inl rfl)
            exact ⟨this.1, this.2⟩
          · have hb0 := hI1 (hsh, b0)
              (aLookup_mem cache.entries hsh b0 hlk)
            rw [hb, hlk]
            have := lruAdd_block b0 podName (by rw [hb0.1]; exact hmp)
              (Or.inr hb0.2)
            exact ⟨this.1, by rw [this.2, hb0.1]⟩
        -- one block of the prompt is consumed, so the cache has room
        have hdiv : bytes.length / blockSize =
            (bytes.length - blockSize) / blockSize + 1 := by
          rw [Nat.div_eq bytes.length blockSize, if_pos hc]
        have hroom : cache.entries.length + 1 ≤ cache.capacity := by
          rw [hdiv] at hcap
          generalize (bytes.length - blockSize) / blockSize = q at hcap
          omega
        have hne := lruAdd_no_evict cache hsh (lruAdd b podName ()) hroom
        set cache' : CacheM := lruAdd cache hsh (lruAdd b podName ())
          with hcache'
        have hI1' : ∀ e ∈ cache'.entries,
            (e.2 : BlockM).capacity = maxPods ∧
            (e.2 : BlockM).entries = [(podName, ())] := by
          intro e he
          rw [hne.1] at he
          rcases List.mem_cons.mp he with he1 | he2
          · rw [he1]
            exact ⟨hbprops.2, hbprops.1⟩
          · exact hI1 e (List.mem_of_mem_filter he2)
        have hlen' : cache'.entries.length ≤ cache.entries.length + 1 := by
          rw [hne.1, List.length_cons]
          have hfl : (aRemove cache.entries hsh).length ≤
              cache.entries.length := List.length_filter_le _ _
          omega
        have hcap' : cache'.entries.length +
            (bytes.drop blockSize).length / blockSize ≤ cache'.capacity := by
          rw [hne.2, List.length_drop]
          rw [hdiv] at hcap
          generalize (bytes.length - blockSize) / blockSize = q at hcap ⊢
          omega
        have hpres : ∀ k, aLookup cache.entries k ≠ none →
            aLookup cache'.entries k ≠ none := by
          intro k hk
          rw [hne.1]
          by_cases hkh : k = hsh
          · subst hkh
            simp [aLookup]
          · rw [aLookup_cons, if_neg (fun hx => hkh hx.symm),
              aLookup_aRemove_ne cache.entries hsh k hkh]
            exact hk
        have hself : aLookup cache'.entries hsh ≠ none := by
          rw [hne.1]
          simp [aLookup]
        have hrec := ih hsh (bytes.drop blockSize) cache' hI1' hcap'
        rcases hrec with ⟨r1, r2, r3, r4, r5⟩
        refine ⟨r1, by rw [r2, hne.2], ?_, ?_, ?_⟩
        · intro k hk
          exact r3 k (hpres k hk)
        · intro hx hmem
          rcases List.mem_cons.mp hmem with h1 | h2
          · rw [h1]
            exact r3 hsh hself
          · exact r4 hx h2
        · rw [List.length_drop] at r5
          rw [hdiv]
          generalize (bytes.length - blockSize) / blockSize = q at r5 ⊢
          omega
      · rw [if_neg hc, if_neg hc]
        refine ⟨hI1, rfl, fun k hk => hk, ?_, Nat.le_add_right _ _⟩
        intro hsh hmem
        simp at hmem

/-- Counting along the `FindMatchingPods` walk: when every hash of the chain
is present and every block holds exactly the inserted pod, the walk
increments that pod's counter once per chain element. -/
theorem findBlocks_count (blockSize : Nat) (cache : CacheM) (podName : String)
    (hI1 : ∀ e ∈ cache.entries, (e.2 : BlockM).entries = [(podName, ())]) :
    ∀ (fuel prev : Nat) (bytes : List Nat) (acc : List (String × Nat)),
      (∀ hsh ∈ chainFrom blockSize fuel prev bytes,
        aLookup cache.entries hsh ≠ none) →
      (aLookup (findBlocks blockSize cache fuel prev bytes acc)
        podName).getD 0 =
        (aLookup acc podName).getD 0 +
          (chainFrom blockSize fuel prev bytes).length := by
  intro fuel
  induction fuel with
  | zero =>
      intro prev bytes acc hin
      rw [findBlocks, chainFrom]
      simp
  | succ fuel ih =>
      intro prev bytes acc hin
      simp only [findBlocks, chainFrom]
      simp only [chainFrom] at hin
      by_cases hc : 0 < blockSize ∧ blockSize ≤ bytes.length
      · rw [if_pos hc, if_pos hc]
        rw [if_pos hc] at hin
        have hhead : aLookup cache.entries
            (blockHash prev (bytes.take blockSize)) ≠ none :=
          hin _ (List.mem_cons_self _ _)
        rcases hlk : lruLookup cache (blockHash prev (bytes.take blockSize))
          with _ | b
        · rw [lruLookup] at hlk
          exact absurd hlk hhead
        · have hbe : b.entries = [(podName, ())] := by
            rw [lruLookup] at hlk
            exact hI1 (_, b) (aLookup_mem _ _ _ hlk)
          have hfold : (b.entries.foldl (fun m e => countsIncr m e.1) acc) =
              countsIncr acc podName := by
            rw [hbe]
            rfl
          simp only [hfold]
          have hin' : ∀ hsh ∈ chainFrom blockSize fuel
              (blockHash prev (bytes.take blockSize))
              (bytes.drop blockSize), aLookup cache.entries hsh ≠ none :=
            fun hsh hmem => hin hsh (List.mem_cons_of_mem _ hmem)
          rw [ih (blockHash prev (bytes.take blockSize))
            (bytes.drop blockSize) (countsIncr acc podName) hin']
          rw [countsIncr_lookup]
          simp [List.length_cons]
          omega
      · rw [if_neg hc, if_neg hc]
        rw [if_neg hc] at hin
        simp

/-- C4 (amended): for every NON-EMPTY model name `m`, prompt with
`len(p) ≥ B > 0`, and pod, starting from a fresh store whose capacities
rule out eviction of the involved blocks (`⌊len(p)/B⌋ ≤ cacheCapacity`,
`1 ≤ maxBlockPods`), `AddEntry(m, p, pod)` followed by
`FindMatchingPods(p, m)` returns a map containing `pod` with hit count
exactly `⌊len(p)/B⌋`. -/
theorem prefixStore_addFind (cap bs maxPods : Nat) (m : String)
    (prompt : List Nat) (podName : String)
    (hm : m ≠ "") (hbs : 0 < bs) (hlen : bs ≤ prompt.length)
    (hcap : prompt.length / bs ≤ cap) (hmp : 1 ≤ maxPods) :
    findCount (findMatchingPods
      (addEntry (newPrefixStore cap bs maxPods) m prompt (some podName))
      prompt m) podName = some (prompt.length / bs) := by
  have hnil : prompt ≠ [] := by
    intro h0
    rw [h0] at hlen
    simp at hlen
    omega
  have hguard : ¬ (prompt = [] ∨ prompt.length < bs) := by
    rintro (h1 | h2)
    · exact hnil h1
    · omega
  have hstore : (addEntry (newPrefixStore cap bs maxPods) m prompt
      (some podName)).store =
      [(m, addEntryBlocks bs maxPods podName prompt.length 0 prompt
        ⟨cap, []⟩)] := by
    rw [addEntry]
    simp only [newPrefixStore]
    rw [if_neg hguard]
    rfl
  have hinv := addEntryBlocks_invariant bs maxPods podName hbs hmp
    prompt.length 0 prompt ⟨cap, []⟩ (by intro e he; simp at he)
    (by simpa using hcap)
  rcases hinv with ⟨i1, i2, i3, i4, i5⟩
  have hguard2 : ¬ (prompt = [] ∨ m = "" ∨ prompt.length < bs) := by
    rintro (h1 | h2 | h3)
    · exact hnil h1
    · exact hm h2
    · omega
  have hfms : findMatchingPods
      (addEntry (newPrefixStore cap bs maxPods) m prompt (some podName))
      prompt m =
      some (findBlocks bs
        (addEntryBlocks bs maxPods podName prompt.length 0 prompt ⟨cap, []⟩)
        prompt.length 0 prompt []) := by
    rw [findMatchingPods, hstore]
    have hbsfield : (addEntry (newPrefixStore cap bs maxPods) m prompt
        (some podName)).cacheBlockSize = bs := by
      rw [addEntry]
      simp only [newPrefixStore]
      rw [if_neg hguard]
    rw [hbsfield]
    rw [if_neg hguard2]
    simp [aLookup]
  rw [findCount, hfms]
  have hcnt := findBlocks_count bs
    (addEntryBlocks bs maxPods podName prompt.length 0 prompt ⟨cap, []⟩)
    podName (fun e he => (i1 e he).2) prompt.length 0 prompt [] i4
  rw [chainFrom_length bs hbs prompt.length 0 prompt (le_refl _)] at hcnt
  simp only [aLookup_nil, Option.getD_none, Nat.zero_add] at hcnt
  have hpos : 1 ≤ prompt.length / bs := (Nat.one_le_div_iff hbs).mpr hlen
  rcases hfin : aLookup (findBlocks bs
      (addEntryBlocks bs maxPods podName prompt.length 0 prompt ⟨cap, []⟩)
      prompt.length 0 prompt []) podName with _ | k
  · rw [hfin] at hcnt
    simp at hcnt
    omega
  · rw [hfin] at hcnt
    simp at hcnt
    rw [hcnt] at hfin
    exact hfin

/-- Closed instance of `prefixStore_addFind`: a 9-byte prompt with block
size 4 under model `"m"` yields hit count `⌊9/4⌋ = 2`. -/
theorem prefixStore_addFind_witness :
    findCount (findMatchingPods
      (addEntry (newPrefixStore 500000 4 100) "m" [1, 2, 3, 4, 5, 6, 7, 8, 9]
        (some "default/pod1"))
      [1, 2, 3, 4, 5, 6, 7, 8, 9] "m") "default/pod1" = some 2 :=
  prefixStore_addFind 500000 4 100 "m" [1, 2, 3, 4, 5, 6, 7, 8, 9]
    "default/pod1" (by decide) (by decide) (by decide) (by decide) (by decide)

/-- C4 counterexample: for the EMPTY model name the claim fails.
`AddEntry("", p, pod)` stores the blocks under the empty-name cache, but
`FindMatchingPods(p, "")` rejects the empty model name and returns the nil
map, which does not include the pod with count `⌊len(p)/B⌋ = 1`. -/
theorem prefixStore_addFind_counterexample :
    findCount (findMatchingPods
      (addEntry (newPrefixStore 500000 4 100) "" [1, 2, 3, 4] (some "p"))
      [1, 2, 3, 4] "") "p" = none ∧
    (some ((4 : Nat) / 4) : Option Nat) ≠ none := by
  exact ⟨by decide, by decide⟩

/-- C3 counterexample: the first block's hash is NOT seeded from the model
name.  The `AddEntry`/`FindMatchingPods` loops start the chain from
`previousHash = 0` regardless of the model, so two distinct model names
produce identical (non-empty) hash chains for the same prompt and block
size. -/
theorem prefixChain_modelSeed_counterexample :
    ("model-a" : String) ≠ "model-b" ∧
    addEntryHashChain "model-a" 4 [1, 2, 3, 4, 5, 6, 7, 8] ≠ [] ∧
    addEntryHashChain "model-a" 4 [1, 2, 3, 4, 5, 6, 7, 8] =
      addEntryHashChain "model-b" 4 [1, 2, 3, 4, 5, 6, 7, 8] := by
  exact ⟨by decide, by decide, rfl⟩

/-- C3 (amended): the hash chain computed by `AddEntry` and
`FindMatchingPods` is `h_i = xxh64(LE64(h_{i-1}) ‖ block_i)` with
`h_{-1} = 0` and is independent of the model name; prompts under different
models still never collide because the model name selects a separate
per-model cache, so a lookup under a different model name finds nothing. -/
theorem prefixStore_modelIsolation (m₁ m₂ : String) (blockSize : Nat)
    (prompt : List Nat) (pod : Option String) (cap bs maxPods : Nat) :
    addEntryHashChain m₁ blockSize prompt =
      addEntryHashChain m₂ blockSize prompt ∧
    (m₂ ≠ m₁ →
      findMatchingPods
        (addEntry (newPrefixStore cap bs maxPods) m₁ prompt pod)
        prompt m₂ = none) := by
  refine ⟨rfl, ?_⟩
  intro hne
  have hstore : aLookup
      (addEntry (newPrefixStore cap bs maxPods) m₁ prompt pod).store m₂ =
      none := by
    rcases pod with _ | podName
    · rfl
    · rw [addEntry]
      simp only [newPrefixStore]
      by_cases hg : prompt = [] ∨ prompt.length < bs
      · rw [if_pos hg]
        rfl
      · rw [if_neg hg]
        simp only [aSet]
        rw [aLookup_cons, if_neg (fun hx => hne hx.symm)]
        rfl
  rw [findMatchingPods]
  by_cases hg2 : prompt = [] ∨ m₂ = "" ∨
      prompt.length <
        (addEntry (newPrefixStore cap bs maxPods) m₁ prompt pod).cacheBlockSize
  · rw [if_pos hg2]
  · rw [if_neg hg2, hstore]

/-- Closed instance of `prefixStore_modelIsolation`: equal chains for two
model names and an empty lookup under the other model. -/
theorem prefixStore_modelIsolation_witness :
    addEntryHashChain "a" 4 [9, 9, 9, 9] =
      addEntryHashChain "b" 4 [9, 9, 9, 9] ∧
    findMatchingPods
      (addEntry (newPrefixStore 10 4 10) "a" [9, 9, 9, 9] (some "p"))
      [9, 9, 9, 9] "b" = none := by
  have hm := prefixStore_modelIsolation "a" "b" 4 [9, 9, 9, 9] (some "p")
    10 4 10
  exact ⟨hm.1, hm.2 (by decide)⟩

/-! ### Active-request tracker

Model of `ActiveRequest` (`pkg/plugins/scorer/active_request.go`): a TTL
cache of request entries with composite keys `podName ++ "." ++ requestId`
plus a per-pod counter map.  TTL timing is abstracted: the expiry eviction
callback (which removes one concrete expired entry and decrements its pod's
counter) is modelled as an `expire` operation that may fire on any present
key, a superset of the real timed behaviours. -/

/-- Model of `requestEntry`. -/
structure RequestEntryM where
  podName : String
  requestId : String
deriving DecidableEq

/-- The composite cache key `entry.String()`, that is
`PodName ++ "." ++ RequestID`. -/
def entryKey (e : RequestEntryM) : String :=
  e.podName ++ "." ++ e.requestId

/-- Model of the `ActiveRequest` mutable state: the request cache and the
per-pod counters (Go `map[string]int`). -/
structure ActiveRequestState where
  requestCache : List (String × RequestEntryM)
  podCounts : List (String × Int)
deriving DecidableEq

/-- The initial state built by `NewActiveRequest`. -/
def activeRequestInit : ActiveRequestState :=
  { requestCache := [], podCounts := [] }

/-- Model of `incrementPodCount`: `podCounts[podName]++` on a Go map, where
an absent key reads as zero. -/
def incrementPodCount (counts : List (String × Int)) (podName : String) :
    List (String × Int) :=
  aSet counts podName ((aLookup counts podName).getD 0 + 1)

/-- Model of `decrementPodCount`: nothing happens for an absent key; a
count at most 1 deletes the key, otherwise it is decremented. -/
def decrementPodCount (counts : List (String × Int)) (podName : String) :
    List (String × Int) :=
  match aLookup counts podName with
  | none => counts
  | some count =>
      if count ≤ 1 then aRemove counts podName
      else aSet counts podName (count - 1)

/-- Model of `ttlcache.Set`: insert or replace the binding of the key. -/
def cacheSet (cache : List (String × RequestEntryM)) (key : String)
    (e : RequestEntryM) : List (String × RequestEntryM) :=
  (key, e) :: aRemove cache key

/-- Model of `ActiveRequest.PreRequest`: for each profile run result that
is non-nil and has at least one target pod, build the entry for the first
target pod with the request id, `Set` it in the cache and increment the
pod's count. -/
def preRequest (s : ActiveRequestState)
    (profileTargetPods : List (Option (List String))) (requestId : String) :
    ActiveRequestState :=
  profileTargetPods.foldl
    (fun st r =>
      match r with
      | none => st
      | some [] => st
      | some (podName :: _) =>
          let e : RequestEntryM := ⟨podName, requestId⟩
          { requestCache := cacheSet st.requestCache (entryKey e) e
            podCounts := incrementPodCount st.podCounts podName }) s

/-- Model of `ActiveRequest.PostResponse`: skip on a nil target pod;
otherwise `GetAndDelete` the composite key and, only when an entry was
found, remove it and decrement the pod's count. -/
def postResponse (s : ActiveRequestState) (targetPod : Option String)
    (requestId : String) : ActiveRequestState :=
  match targetPod with
  | none => s
  | some podName =>
      let key := entryKey ⟨podName, requestId⟩
      match aLookup s.requestCache key with
      | some _ =>
          { requestCache := aRemove s.requestCache key
            podCounts := decrementPodCount s.podCounts podName }
      | none => s

/-- Model of the expiry eviction callback (`OnEviction` with reason
`Expired`): when the key is still cached, the entry is dropped and its
pod's count is decremented. -/
def expireEntry (s : ActiveRequestState) (key : String) :
    ActiveRequestState :=
  match aLookup s.requestCache key with
  | none => s
  | some e =>
      { requestCache := aRemove s.requestCache key
        podCounts := decrementPodCount s.podCounts e.podName }

/-- One operation on the tracker. -/
inductive AROp where
  | pre (profileTargetPods : List (Option (List String))) (requestId : String)
  | post (targetPod : Option String) (requestId : String)
  | expire (key : String)
deriving DecidableEq

/-- Run one operation. -/
def arStep (s : ActiveRequestState) : AROp → ActiveRequestState
  | .pre targets rid => preRequest s targets rid
  | .post targetPod rid => postResponse s targetPod rid
  | .expire key => expireEntry s key

/-- Run a sequence of operations. -/
def arRun (s : ActiveRequestState) : List AROp → ActiveRequestState
  | [] => s
  | op :: rest => arRun (arStep s op) rest

/-- The tracked count of a pod (Go map read defaulting to zero). -/
def arCount (s : ActiveRequestState) (podName : String) : Int :=
  (aLookup s.podCounts podName).getD 0

/-- The number of cached (unexpired) entries whose pod name is `podName`. -/
def arEntries (s : ActiveRequestState) (podName : String) : Nat :=
  (s.requestCache.filter (fun e => e.2.podName = podName)).length

/-- Failing lookups are exactly absence of the key. -/
theorem aLookup_eq_none_iff {α β : Type} [DecidableEq α]
    (l : List (α × β)) (key : α) :
    aLookup l key = none ↔ key ∉ l.map Prod.fst := by
  induction l with
  | nil => simp [aLookup]
  | cons e rest ih =>
      rcases e with ⟨k, v⟩
      rw [aLookup_cons]
      by_cases hk : k = key
      · subst hk
        simp
      · rw [if_neg hk]
        simp only [List.map_cons, List.mem_cons]
        rw [ih]
        constructor
        · intro h1
          rintro (h2 | h3)
          · exact hk h2.symm
          · exact h1 h3
        · intro h1 h2
          exact h1 (Or.inr h2)

/-- Removing an absent key changes nothing. -/
theorem aRemove_of_lookup_none {α β : Type} [DecidableEq α]
    (l : List (α × β)) (key : α) (h : aLookup l key = none) :
    aRemove l key = l := by
  induction l with
  | nil => rfl
  | cons e rest ih =>
      rcases e with ⟨k, v⟩
      rw [aLookup_cons] at h
      by_cases hk : k = key
      · rw [if_pos hk] at h
        cases h
      · rw [if_neg hk] at h
        rw [aRemove, List.filter_cons, if_pos (by simp [hk])]
        rw [aRemove] at ih
        rw [ih h]

/-- Setting one key does not change the lookup of another. -/
theorem aLookup_aSet_ne {α β : Type} [DecidableEq α] (l : List (α × β))
    (key k' : α) (v : β) (hne : k' ≠ key) :
    aLookup (aSet l key v) k' = aLookup l k' := by
  induction l with
  | nil =>
      rw [aSet, aLookup_cons, if_neg (fun h => hne h.symm)]
  | cons e rest ih =>
      rcases e with ⟨k, w⟩
      by_cases hk : k = key
      · subst hk
        rw [aSet, if_pos rfl, aLookup_cons, aLookup_cons,
          if_neg (fun h => hne h.symm), if_neg (fun h => hne h.symm)]
      · rw [aSet, if_neg hk, aLookup_cons, aLookup_cons]
        by_cases hkk : k = k'
        · rw [if_pos hkk, if_pos hkk]
        · rw [if_neg hkk, if_neg hkk, ih]

/-- A binding after `aSet` is an old binding or the new one. -/
theorem mem_aSet {α β : Type} [DecidableEq α] (l : List (α × β)) (key : α)
    (v : β) (e : α × β) (h : e ∈ aSet l key v) : e ∈ l ∨ e = (key, v) := by
  induction l with
  | nil =>
      rw [aSet] at h
      rcases List.mem_singleton.mp h with h1
      exact Or.inr h1
  | cons hd rest ih =>
      rcases hd with ⟨k, w⟩
      rw [aSet] at h
      by_cases hk : k = key
      · rw [if_pos hk] at h
        rcases List.mem_cons.mp h with h1 | h2
        · exact Or.inr h1
        · exact Or.inl (List.mem_cons_of_mem _ h2)
      · rw [if_neg hk] at h
        rcases List.mem_cons.mp h with h1 | h2
        · exact Or.inl (h1 ▸ List.mem_cons_self _ _)
        · rcases ih h2 with h3 | h4
          · exact Or.inl (List.mem_cons_of_mem _ h3)
          · exact Or.inr h4

/-- Removing the looked-up binding from a duplicate-free cache drops
exactly one entry; its pod contributes one to the per-pod entry filter. -/
theorem aRemove_filter_length (l : List (String × RequestEntryM))
    (key : String) (e : RequestEntryM) (podName : String)
    (hnd : (l.map Prod.fst).Nodup) (hlk : aLookup l key = some e) :
    ((aRemove l key).filter (fun x => x.2.podName = podName)).length +
      (if e.podName = podName then 1 else 0) =
      (l.filter (fun x => x.2.podName = podName)).length := by
  induction l with
  | nil => simp [aLookup] at hlk
  | cons hd tl ih =>
      rcases hd with ⟨k0, e0⟩
      rw [List.map_cons, List.nodup_cons] at hnd
      by_cases hk : k0 = key
      · subst hk
        rw [aLookup_cons, if_pos rfl] at hlk
        cases hlk
        have hnone : aLookup tl k0 = none :=
          (aLookup_eq_none_iff tl k0).mpr hnd.1
        have htl : aRemove tl k0 = tl := aRemove_of_lookup_none tl k0 hnone
        have hhd : aRemove ((k0, e) :: tl) k0 = tl := by
          rw [aRemove, List.filter_cons, if_neg (by simp)]
          rw [aRemove] at htl
          rw [htl]
        rw [hhd, List.filter_cons]
        by_cases hp : e.podName = podName
        · rw [if_pos hp, if_pos (by simp [hp]), List.length_cons]
        · rw [if_neg hp, if_neg (by simp [hp])]
          simp
      · rw [aLookup_cons, if_neg hk] at hlk
        have hhd : aRemove ((k0, e0) :: tl) key =
            (k0, e0) :: aRemove tl key := by
          rw [aRemove, List.filter_cons, if_pos (by simp [hk]), aRemove]
        have ihr := ih hnd.2 hlk
        rw [hhd]
        by_cases hp : e0.podName = podName
        · have hL : ((k0, e0) :: aRemove tl key).filter
              (fun x => x.2.podName = podName) =
              (k0, e0) :: (aRemove tl key).filter
                (fun x => x.2.podName = podName) := by
            rw [List.filter_cons, if_pos (by simp [hp])]
          have hR : ((k0, e0) :: tl).filter
              (fun x => x.2.podName = podName) =
              (k0, e0) :: tl.filter (fun x => x.2.podName = podName) := by
            rw [List.filter_cons, if_pos (by simp [hp])]
          rw [hL, hR, List.length_cons, List.length_cons]
          by_cases hq : e.podName = podName
          · rw [if_pos hq] at ihr ⊢
            omega
          · rw [if_neg hq] at ihr ⊢
            omega
        · have hL : ((k0, e0) :: aRemove tl key).filter
              (fun x => x.2.podName = podName) =
              (aRemove tl key).filter (fun x => x.2.podName = podName) := by
            rw [List.filter_cons, if_neg (by simp [hp])]
          have hR : ((k0, e0) :: tl).filter
              (fun x => x.2.podName = podName) =
              tl.filter (fun x => x.2.podName = podName) := by
            rw [List.filter_cons, if_neg (by simp [hp])]
          rw [hL, hR]
          exact ihr

/-- All stored per-pod counters are at least one (the code deletes a
counter rather than store zero or less). -/
def goodCounts (s : ActiveRequestState) : Prop :=
  ∀ e ∈ s.podCounts, 1 ≤ e.2

/-- Every pod's counter equals its number of cached entries. -/
def countsMatch (s : ActiveRequestState) : Prop :=
  ∀ podName, arCount s podName = (arEntries s podName : Int)

/-- The request cache holds at most one entry per composite key. -/
def cacheKeysNodup (s : ActiveRequestState) : Prop :=
  (s.requestCache.map Prod.fst).Nodup

/-- The well-formedness package maintained by fresh operation sequences. -/
def arInv (s : ActiveRequestState) : Prop :=
  countsMatch s ∧ goodCounts s ∧ cacheKeysNodup s

/-- The pods for which `PreRequest` creates an entry: first target pod of
every non-nil, non-empty profile run result. -/
def effectivePods (profileTargetPods : List (Option (List String))) :
    List String :=
  profileTargetPods.filterMap
    (fun r => match r with
      | some (podName :: _) => some podName
      | _ => none)

/-- Freshness side conditions under which one operation keeps the counter
and the cache in lockstep: a `PreRequest` inserts pairwise-distinct
composite keys that are not yet cached, and a `PostResponse` only observes
cached entries whose recorded pod matches the responding pod (ruling out
composite-key collisions such as pod `a.b`/request `c` against pod
`a`/request `b.c`). -/
def freshOp (s : ActiveRequestState) : AROp → Prop
  | .pre targets rid =>
      ((effectivePods targets).map
        (fun p => entryKey ⟨p, rid⟩)).Nodup ∧
      ∀ p ∈ effectivePods targets,
        aLookup s.requestCache (entryKey ⟨p, rid⟩) = none
  | .post (some podName) rid =>
      ∀ e, aLookup s.requestCache (entryKey ⟨podName, rid⟩) = some e →
        e.podName = podName
  | .post none _ => True
  | .expire _ => True

/-- Freshness of a whole operation sequence, threaded through the evolving
state. -/
def freshSeq : ActiveRequestState → List AROp → Prop
  | _, [] => True
  | s, op :: rest => freshOp s op ∧ freshSeq (arStep s op) rest

/-- `goodCounts` is preserved by every operation, fresh or not. -/
theorem goodCounts_step (s : ActiveRequestState) (op : AROp)
    (h : goodCounts s) : goodCounts (arStep s op) := by
  have hincr : ∀ (counts : List (String × Int)) (podName : String),
      (∀ e ∈ counts, 1 ≤ e.2) →
      ∀ e ∈ incrementPodCount counts podName, 1 ≤ e.2 := by
    intro counts podName hc e he
    rcases mem_aSet counts podName _ e he with h1 | h2
    · exact hc e h1
    · rw [h2]
      rcases hl : aLookup counts podName with _ | c
      · simp [hl]
      · have := hc (podName, c) (aLookup_mem counts podName c hl)
        simp [hl]
        omega
  have hdecr : ∀ (counts : List (String × Int)) (podName : String),
      (∀ e ∈ counts, 1 ≤ e.2) →
      ∀ e ∈ decrementPodCount counts podName, 1 ≤ e.2 := by
    intro counts podName hc e he
    rw [decrementPodCount] at he
    rcases hl : aLookup counts podName with _ | c
    · rw [hl] at he
      exact hc e he
    · rw [hl] at he
      simp only [] at he
      by_cases hcle : c ≤ 1
      · rw [if_pos hcle] at he
        exact hc e (List.mem_of_mem_filter he)
      · rw [if_neg hcle] at he
        rcases mem_aSet counts podName _ e he with h1 | h2
        · exact hc e h1
        · rw [h2]
          simp
          omega
  rcases op with ⟨targets, rid⟩ | ⟨targetPod, rid⟩ | key
  · rw [arStep, preRequest]
    induction targets generalizing s with
    | nil => exact h
    | cons r rest ih =>
        rcases r with _ | pods
        · exact ih s h
        · rcases pods with _ | ⟨podName, more⟩
          · exact ih s h
          · exact ih
              { requestCache := cacheSet s.requestCache
                  (entryKey ⟨podName, rid⟩) ⟨podName, rid⟩
                podCounts := incrementPodCount s.podCounts podName }
              (hincr s.podCounts podName h)
  · rcases targetPod with _ | podName
    · exact h
    · have heq : arStep s (AROp.post (some podName) rid) =
          (match aLookup s.requestCache (entryKey ⟨podName, rid⟩) with
           | some _ =>
               { requestCache :=
                   aRemove s.requestCache (entryKey ⟨podName, rid⟩)
                 podCounts := decrementPodCount s.podCounts podName }
           | none => s) := rfl
      rw [heq]
      rcases hl : aLookup s.requestCache (entryKey ⟨podName, rid⟩) with _ | e
      · exact h
      · exact hdecr s.podCounts podName h
  · have heq : arStep s (AROp.expire key) =
        (match aLookup s.requestCache key with
         | none => s
         | some e =>
             { requestCache := aRemove s.requestCache key
               podCounts := decrementPodCount s.podCounts e.podName }) := rfl
    rw [heq]
    rcases hl : aLookup s.requestCache key with _ | e
    · exact h
    · exact hdecr s.podCounts e.podName h

/-- Removing a cached entry while decrementing its pod's counter preserves
the well-formedness package. -/
theorem removeDecrement_inv (s : ActiveRequestState) (key : String)
    (e : RequestEntryM) (hinv : arInv s)
    (hlk : aLookup s.requestCache key = some e) :
    arInv { requestCache := aRemove s.requestCache key
            podCounts := decrementPodCount s.podCounts e.podName } := by
  rcases hinv with ⟨hm, hg, hn⟩
  have hone : 1 ≤ arEntries s e.podName := by
    rw [arEntries]
    have hmem : (key, e) ∈ s.requestCache := aLookup_mem _ _ _ hlk
    have hmf : (key, e) ∈ s.requestCache.filter
        (fun x => x.2.podName = e.podName) :=
      List.mem_filter.mpr ⟨hmem, by simp⟩
    exact List.length_pos_of_mem hmf
  have hflen := fun podName =>
    aRemove_filter_length s.requestCache key e podName hn hlk
  rcases hc : aLookup s.podCounts e.podName with _ | c
  · -- impossible: the counter reads 0 but at least one entry exists
    have h0 := hm e.podName
    rw [arCount, hc] at h0
    simp at h0
    omega
  · have hcval : c = (arEntries s e.podName : Int) := by
      have h0 := hm e.podName
      rw [arCount, hc] at h0
      simpa using h0
    have hcge : 1 ≤ c := hg (e.podName, c) (aLookup_mem _ _ _ hc)
    have hdec : decrementPodCount s.podCounts e.podName =
        if c ≤ 1 then aRemove s.podCounts e.podName
        else aSet s.podCounts e.podName (c - 1) := by
      rw [decrementPodCount, hc]
    refine ⟨?_, ?_, ?_⟩
    · intro podName
      have hgoalL : arCount
          { requestCache := aRemove s.requestCache key
            podCounts := decrementPodCount s.podCounts e.podName } podName =
          (aLookup (decrementPodCount s.podCounts e.podName)
            podName).getD 0 := rfl
      have hgoalR : arEntries
          { requestCache := aRemove s.requestCache key
            podCounts := decrementPodCount s.podCounts e.podName } podName =
          ((aRemove s.requestCache key).filter
            (fun x => x.2.podName = podName)).length := rfl
      rw [hgoalL, hgoalR, hdec]
      by_cases hp : podName = e.podName
      · subst hp
        have hself := hflen e.podName
        rw [if_pos rfl] at hself
        by_cases hle : c ≤ 1
        · rw [if_pos hle, aLookup_aRemove]
          have hent : arEntries s e.podName = 1 := by omega
          rw [arEntries] at hent
          simp only [Option.getD_none]
          omega
        · rw [if_neg hle, aLookup_aSet]
          have hent := hcval
          rw [arEntries] at hent
          simp only [Option.getD_some]
          omega
      · have hself := hflen podName
        rw [if_neg (fun hx => hp hx.symm)] at hself
        have hcnt := hm podName
        rw [arCount, arEntries] at hcnt
        by_cases hle : c ≤ 1
        · rw [if_pos hle,
            aLookup_aRemove_ne s.podCounts e.podName podName hp]
          omega
        · rw [if_neg hle,
            aLookup_aSet_ne s.podCounts e.podName podName (c - 1) hp]
          omega
    · intro x hx
      rw [hdec] at hx
      by_cases hle : c ≤ 1
      · rw [if_pos hle] at hx
        exact hg x (List.mem_of_mem_filter hx)
      · rw [if_neg hle] at hx
        rcases mem_aSet s.podCounts e.podName _ x hx with h1 | h2
        · exact hg x h1
        · rw [h2]
          simp
          omega
    · have hsub : (aRemove s.requestCache key).Sublist s.requestCache :=
        List.filter_sublist _
      exact (hsub.map Prod.fst).nodup hn

/-- A fresh `PreRequest` preserves the well-formedness package. -/
theorem preRequest_inv (rid : String) :
    ∀ (targets : List (Option (List String))) (s : ActiveRequestState),
      arInv s →
      ((effectivePods targets).map (fun p => entryKey ⟨p, rid⟩)).Nodup →
      (∀ p ∈ effectivePods targets,
        aLookup s.requestCache (entryKey ⟨p, rid⟩) = none) →
      arInv (preRequest s targets rid) := by
  intro targets
  induction targets with
  | nil =>
      intro s hinv _ _
      exact hinv
  | cons r rest ih =>
      intro s hinv hnd hfresh
      rcases r with _ | pods
      · exact ih s hinv hnd hfresh
      · rcases pods with _ | ⟨podName, more⟩
        · exact ih s hinv hnd hfresh
        · have heff : effectivePods (some (podName :: more) :: rest) =
              podName :: effectivePods rest := rfl
          rw [heff] at hnd hfresh
          rw [List.map_cons, List.nodup_cons] at hnd
          have hknone : aLookup s.requestCache
              (entryKey ⟨podName, rid⟩) = none :=
            hfresh podName (List.mem_cons_self _ _)
          have hstep : preRequest s (some (podName :: more) :: rest) rid =
              preRequest
                { requestCache := cacheSet s.requestCache
                    (entryKey ⟨podName, rid⟩) ⟨podName, rid⟩
                  podCounts := incrementPodCount s.podCounts podName }
                rest rid := rfl
          rw [hstep]
          set key := entryKey (⟨podName, rid⟩ : RequestEntryM) with hkey
          have hcs : cacheSet s.requestCache key ⟨podName, rid⟩ =
              (key, ⟨podName, rid⟩) :: s.requestCache := by
            rw [cacheSet, aRemove_of_lookup_none _ _ hknone]
          set s' : ActiveRequestState :=
            { requestCache := cacheSet s.requestCache key ⟨podName, rid⟩
              podCounts := incrementPodCount s.podCounts podName } with hs'
          have hinv' : arInv s' := by
            rcases hinv with ⟨hm, hg, hn⟩
            refine ⟨?_, ?_, ?_⟩
            · intro p
              have hL : arCount s' p =
                  (aLookup (incrementPodCount s.podCounts podName) p).getD 0 :=
                rfl
              have hR : arEntries s' p =
                  ((cacheSet s.requestCache key ⟨podName, rid⟩).filter
                    (fun x => x.2.podName = p)).length := rfl
              rw [hL, hR, hcs, incrementPodCount]
              by_cases hp : p = podName
              · subst hp
                rw [aLookup_aSet]
                rw [List.filter_cons, if_pos (by simp)]
                rw [List.length_cons]
                have hcnt := hm p
                rw [arCount, arEntries] at hcnt
                simp only [Option.getD_some]
                omega
              · have hnp : ¬ podName = p := fun hx => hp hx.symm
                rw [aLookup_aSet_ne s.podCounts podName p _ hp]
                rw [List.filter_cons, if_neg (by simp [hnp])]
                have hcnt := hm p
                rw [arCount, arEntries] at hcnt
                exact hcnt
            · intro x hx
              rcases mem_aSet s.podCounts podName _ x hx with h1 | h2
              · exact hg x h1
              · rw [h2]
                rcases hl : aLookup s.podCounts podName with _ | cc
                · simp [hl]
                · have := hg (podName, cc) (aLookup_mem _ _ _ hl)
                  simp [hl]
                  omega
            · rw [cacheKeysNodup, hs']
              simp only []
              rw [hcs, List.map_cons, List.nodup_cons]
              exact ⟨(aLookup_eq_none_iff _ _).mp hknone, hn⟩
          apply ih s' hinv' hnd.2
          intro p hp
          have hkne : entryKey ⟨p, rid⟩ ≠ key := by
            intro hx
            exact hnd.1 (hx ▸ List.mem_map_of_mem _ hp)
          have hL : aLookup s'.requestCache (entryKey ⟨p, rid⟩) =
              aLookup ((key, (⟨podName, rid⟩ : RequestEntryM)) ::
                s.requestCache) (entryKey ⟨p, rid⟩) := by
            rw [hs']
            simp only []
            rw [hcs]
          rw [hL, aLookup_cons, if_neg (fun hx => hkne hx.symm)]
          exact hfresh p (List.mem_cons_of_mem _ hp)

/-- One fresh operation preserves the well-formedness package. -/
theorem arInv_step (s : ActiveRequestState) (op : AROp) (hinv : arInv s)
    (hf : freshOp s op) : arInv (arStep s op) := by
  rcases op with ⟨targets, rid⟩ | ⟨targetPod, rid⟩ | key
  · exact preRequest_inv rid targets s hinv hf.1 hf.2
  · rcases targetPod with _ | podName
    · exact hinv
    · have heq : arStep s (AROp.post (some podName) rid) =
          (match aLookup s.requestCache (entryKey ⟨podName, rid⟩) with
           | some _ =>
               { requestCache :=
                   aRemove s.requestCache (entryKey ⟨podName, rid⟩)
                 podCounts := decrementPodCount s.podCounts podName }
           | none => s) := rfl
      rw [heq]
      rcases hl : aLookup s.requestCache (entryKey ⟨podName, rid⟩) with _ | e
      · exact hinv
      · have hpe : e.podName = podName := hf e hl
        have := removeDecrement_inv s (entryKey ⟨podName, rid⟩) e hinv hl
        rw [hpe] at this
        exact this
  · have heq : arStep s (AROp.expire key) =
        (match aLookup s.requestCache key with
         | none => s
         | some e =>
             { requestCache := aRemove s.requestCache key
               podCounts := decrementPodCount s.podCounts e.podName }) := rfl
    rw [heq]
    rcases hl : aLookup s.requestCache key with _ | e
    · exact hinv
    · exact removeDecrement_inv s key e hinv hl

/-- A fresh sequence of operations preserves the package. -/
theorem arInv_run : ∀ (ops : List AROp) (s : ActiveRequestState),
    arInv s → freshSeq s ops → arInv (arRun s ops) := by
  intro ops
  induction ops with
  | nil =>
      intro s hinv _
      exact hinv
  | cons op rest ih =>
      intro s hinv hfresh
      exact ih (arStep s op) (arInv_step s op hinv hfresh.1) hfresh.2

/-- The initial state is well formed. -/
theorem arInv_init : arInv activeRequestInit := by
  refine ⟨?_, ?_, ?_⟩
  · intro podName
    rfl
  · intro x hx
    simp [activeRequestInit] at hx
  · simp [cacheKeysNodup, activeRequestInit]

/-- `goodCounts` holds after any sequence of operations from the initial
state. -/
theorem goodCounts_run : ∀ (ops : List AROp) (s : ActiveRequestState),
    goodCounts s → goodCounts (arRun s ops) := by
  intro ops
  induction ops with
  | nil =>
      intro s h
      exact h
  | cons op rest ih =>
      intro s h
      exact ih (arStep s op) (goodCounts_step s op h)

/-- Matched PreRequest/PostResponse pairs on the same pod: one pair per
request id. -/
def pairSeq (podName : String) (rids : List String) : List AROp :=
  rids.flatMap (fun r =>
    [AROp.pre [some [podName]] r, AROp.post (some podName) r])

/-- PreRequest calls with no PostResponse: one per request id. -/
def preSeq (podName : String) (rids : List String) : List AROp :=
  rids.map (fun r => AROp.pre [some [podName]] r)

/-- Unfolding of a `PostResponse` step on a present pod. -/
theorem arStep_post_some (s : ActiveRequestState) (podName rid : String) :
    arStep s (AROp.post (some podName) rid) =
      match aLookup s.requestCache (entryKey ⟨podName, rid⟩) with
      | some _ =>
          { requestCache := aRemove s.requestCache (entryKey ⟨podName, rid⟩)
            podCounts := decrementPodCount s.podCounts podName }
      | none => s := rfl

/-- One matched pair from the empty state returns to the empty state. -/
theorem pairStep_eq (podName rid : String) :
    arStep (arStep activeRequestInit (AROp.pre [some [podName]] rid))
      (AROp.post (some podName) rid) = activeRequestInit := by
  have h1 : arStep activeRequestInit (AROp.pre [some [podName]] rid) =
      { requestCache := [(entryKey ⟨podName, rid⟩, ⟨podName, rid⟩)]
        podCounts := [(podName, 1)] } := rfl
  rw [h1, arStep_post_some]
  simp only [aLookup_cons, if_pos rfl]
  have hrc : aRemove
      [(entryKey (⟨podName, rid⟩ : RequestEntryM),
        (⟨podName, rid⟩ : RequestEntryM))]
      (entryKey ⟨podName, rid⟩) = [] := by
    simp [aRemove]
  have hpc : decrementPodCount [(podName, 1)] podName = [] := by
    rw [decrementPodCount, aLookup_cons, if_pos rfl]
    simp [aRemove]
  rw [hrc, hpc]
  rfl

/-- Any number of matched pairs returns to the empty state. -/
theorem pairSeq_run (podName : String) :
    ∀ rids : List String,
      arRun activeRequestInit (pairSeq podName rids) = activeRequestInit := by
  intro rids
  induction rids with
  | nil => rfl
  | cons r rest ih =>
      have hseq : pairSeq podName (r :: rest) =
          AROp.pre [some [podName]] r :: AROp.post (some podName) r ::
            pairSeq podName rest := rfl
      rw [hseq]
      have hrun : arRun activeRequestInit
          (AROp.pre [some [podName]] r :: AROp.post (some podName) r ::
            pairSeq podName rest) =
          arRun (arStep (arStep activeRequestInit
            (AROp.pre [some [podName]] r)) (AROp.post (some podName) r))
            (pairSeq podName rest) := rfl
      rw [hrun, pairStep_eq]
      exact ih

/-- Each plain PreRequest adds one to the pod's count. -/
theorem preSeq_count (podName : String) :
    ∀ (rids : List String) (s : ActiveRequestState),
      arCount (arRun s (preSeq podName rids)) podName =
        arCount s podName + rids.length := by
  intro rids
  induction rids with
  | nil =>
      intro s
      simp [preSeq, arRun]
  | cons r rest ih =>
      intro s
      have hseq : preSeq podName (r :: rest) =
          AROp.pre [some [podName]] r :: preSeq podName rest := rfl
      rw [hseq]
      have hrun : arRun s (AROp.pre [some [podName]] r :: preSeq podName rest)
          = arRun (arStep s (AROp.pre [some [podName]] r))
              (preSeq podName rest) := rfl
      rw [hrun, ih]
      have hstep : arCount (arStep s (AROp.pre [some [podName]] r)) podName =
          arCount s podName + 1 := by
        have h1 : arStep s (AROp.pre [some [podName]] r) =
            { requestCache := cacheSet s.requestCache
                (entryKey ⟨podName, r⟩) ⟨podName, r⟩
              podCounts := incrementPodCount s.podCounts podName } := rfl
        rw [h1, arCount]
        simp only []
        rw [incrementPodCount, aLookup_aSet]
        rw [arCount]
        simp
      rw [hstep]
      rw [List.length_cons]
      omega

/-- Unfolding of `PostResponse` on a present pod. -/
theorem postResponse_some (s : ActiveRequestState) (podName rid : String) :
    postResponse s (some podName) rid =
      match aLookup s.requestCache (entryKey ⟨podName, rid⟩) with
      | some _ =>
          { requestCache := aRemove s.requestCache (entryKey ⟨podName, rid⟩)
            podCounts := decrementPodCount s.podCounts podName }
      | none => s := rfl

/-- C7 counterexample: the lockstep invariant `count(pod) = number of
unexpired entries for pod` fails on the code.  A single `PreRequest` whose
scheduling result has two profiles choosing the same pod inserts the same
composite key twice: the second `Set` overwrites the first cache entry,
while `incrementPodCount` still runs twice, leaving count 2 against 1
cached entry. -/
theorem activeRequest_sync_counterexample :
    arCount (arRun activeRequestInit
      [AROp.pre [some ["p"], some ["p"]] "r1"]) "p" = 2 ∧
    arEntries (arRun activeRequestInit
      [AROp.pre [some ["p"], some ["p"]] "r1"]) "p" = 1 ∧
    ((2 : Int) ≠ ((1 : Nat) : Int)) :=
  ⟨by decide, by decide, by decide⟩

/-- C7 (amended): at every point of every operation sequence the tracked
count is non-negative; the count equals the number of unexpired cache
entries for the pod along every sequence whose PreRequests insert only
fresh, pairwise-distinct composite keys and whose PostResponses meet no
key collision; after `n` matched PreRequest/PostResponse pairs on the same
pod the count is 0; and after `n` PreRequests with no PostResponse and no
expiry it is `n`. -/
theorem activeRequest_count_spec :
    (∀ (ops : List AROp) (podName : String),
      0 ≤ arCount (arRun activeRequestInit ops) podName) ∧
    (∀ ops : List AROp, freshSeq activeRequestInit ops →
      ∀ podName, arCount (arRun activeRequestInit ops) podName =
        (arEntries (arRun activeRequestInit ops) podName : Int)) ∧
    (∀ (podName : String) (rids : List String),
      arCount (arRun activeRequestInit (pairSeq podName rids)) podName = 0) ∧
    (∀ (podName : String) (rids : List String),
      arCount (arRun activeRequestInit (preSeq podName rids)) podName =
        rids.length) := by
  refine ⟨?_, ?_, ?_, ?_⟩
  · intro ops podName
    have hg := goodCounts_run ops activeRequestInit
      (fun x hx => by simp [activeRequestInit] at hx)
    rw [arCount]
    rcases hl : aLookup (arRun activeRequestInit ops).podCounts podName
      with _ | c
    · simp
    · have := hg (podName, c) (aLookup_mem _ _ _ hl)
      simp
      omega
  · intro ops hfresh podName
    exact (arInv_run ops activeRequestInit arInv_init hfresh).1 podName
  · intro podName rids
    rw [pairSeq_run podName rids]
    rfl
  · intro podName rids
    rw [preSeq_count podName rids activeRequestInit]
    have h0 : arCount activeRequestInit podName = 0 := rfl
    rw [h0]
    omega

/-- Closed instance of `activeRequest_count_spec`: one fresh
PreRequest/PostResponse exchange keeps the counter and cache in lockstep,
and two plain PreRequests count 2. -/
theorem activeRequest_count_spec_witness :
    arCount (arRun activeRequestInit
      [AROp.pre [some ["a"]] "r1", AROp.post (some "a") "r1"]) "a" =
      (arEntries (arRun activeRequestInit
        [AROp.pre [some ["a"]] "r1", AROp.post (some "a") "r1"]) "a" : Int) ∧
    arCount (arRun activeRequestInit (preSeq "a" ["r1", "r2"])) "a" = 2 := by
  have hfresh : freshSeq activeRequestInit
      [AROp.pre [some ["a"]] "r1", AROp.post (some "a") "r1"] := by
    refine ⟨⟨by decide, by decide⟩, ?_, trivial⟩
    intro e he
    have he' : (⟨"a", "r1"⟩ : RequestEntryM) = e := by
      have hcache : (arStep activeRequestInit
          (AROp.pre [some ["a"]] "r1")).requestCache =
          [(entryKey ⟨"a", "r1"⟩, ⟨"a", "r1"⟩)] := rfl
      rw [hcache, aLookup_cons, if_pos rfl] at he
      exact Option.some.inj he
    rw [← he']
  exact ⟨activeRequest_count_spec.2.1 _ hfresh "a",
    by simpa using activeRequest_count_spec.2.2.2 "a" ["r1", "r2"]⟩

/-- C10: `PostResponse` with a nil target pod, or with a `(pod, requestId)`
pair that has no cache entry, leaves the state (hence every per-pod count)
unchanged, and a repeated `PostResponse` for the same pair is absorbed by
the first: the count is decremented at most once in total. -/
theorem activeRequest_postResponse_noop (s : ActiveRequestState)
    (podName rid : String) :
    postResponse s none rid = s ∧
    (aLookup s.requestCache (entryKey ⟨podName, rid⟩) = none →
      postResponse s (some podName) rid = s) ∧
    postResponse (postResponse s (some podName) rid) (some podName) rid =
      postResponse s (some podName) rid := by
  refine ⟨rfl, ?_, ?_⟩
  · intro h
    rw [postResponse_some, h]
  · rcases hl : aLookup s.requestCache (entryKey ⟨podName, rid⟩) with _ | e
    · have h1 : postResponse s (some podName) rid = s := by
        rw [postResponse_some, hl]
      rw [h1]
      exact h1
    · have h1 : postResponse s (some podName) rid =
          { requestCache := aRemove s.requestCache (entryKey ⟨podName, rid⟩)
            podCounts := decrementPodCount s.podCounts podName } := by
        rw [postResponse_some, hl]
      rw [h1, postResponse_some]
      simp only []
      rw [aLookup_aRemove]

/-- Closed instance of `activeRequest_postResponse_noop`: on an empty
state both the nil-pod and the missing-entry `PostResponse` are no-ops. -/
theorem activeRequest_postResponse_noop_witness :
    postResponse ⟨[], []⟩ none "r" = (⟨[], []⟩ : ActiveRequestState) ∧
    postResponse ⟨[], []⟩ (some "a") "r" =
      (⟨[], []⟩ : ActiveRequestState) := by
  have hm := activeRequest_postResponse_noop ⟨[], []⟩ "a" "r"
  exact ⟨hm.1, hm.2.1 (by decide)⟩

/-! ### Session-affinity and prefix-aware scorers

Models of `SessionAffinity.Score` (`pkg/plugins/scorer/session_affinity.go`)
and `PrefixAwareScorer.Score` (`pkg/plugins/scorer/prefix_aware.go`) with
the score normalisation helper (`pkg/scheduling/plugins/scorer/utils.go`).
Candidate pods are identified by their rendered namespaced name. -/

/-- Model of an `LLMRequest` (prompts as UTF-8 bytes). -/
structure LLMRequestM where
  requestId : String
  targetModel : String
  prompt : List Nat
  headers : List (String × String)

/-- The UTF-8 bytes of one character. -/
def utf8EncodeChar (c : Char) : List Nat :=
  let n := c.toNat
  if n < 0x80 then [n]
  else if n < 0x800 then
    [0xC0 ||| (n >>> 6), 0x80 ||| (n &&& 0x3F)]
  else if n < 0x10000 then
    [0xE0 ||| (n >>> 12), 0x80 ||| ((n >>> 6) &&& 0x3F),
     0x80 ||| (n &&& 0x3F)]
  else
    [0xF0 ||| (n >>> 18), 0x80 ||| ((n >>> 12) &&& 0x3F),
     0x80 ||| ((n >>> 6) &&& 0x3F), 0x80 ||| (n &&& 0x3F)]

/-- The UTF-8 bytes of a string (Go strings are byte strings; comparisons
of `string(decodedBytes)` are byte-wise). -/
def utf8Bytes (s : String) : List Nat :=
  s.data.flatMap utf8EncodeChar

/-- Value of one base64 alphabet character (`StdEncoding`). -/
def base64Val (c : Char) : Option Nat :=
  if 'A' ≤ c ∧ c ≤ 'Z' then some (c.toNat - 65)
  else if 'a' ≤ c ∧ c ≤ 'z' then some (c.toNat - 97 + 26)
  else if '0' ≤ c ∧ c ≤ '9' then some (c.toNat - 48 + 52)
  else if c = '+' then some 62
  else if c = '/' then some 63
  else none

/-- Decode one base64 quad, honouring the `=`-padding forms. -/
def base64DecodeQuad (c1 c2 c3 c4 : Char) : Option (List Nat) :=
  match base64Val c1, base64Val c2 with
  | some v1, some v2 =>
      if c3 = '=' then
        if c4 = '=' then some [(v1 <<< 2 ||| v2 >>> 4) % 256]
        else none
      else
        match base64Val c3 with
        | some v3 =>
            if c4 = '=' then
              some [(v1 <<< 2 ||| v2 >>> 4) % 256,
                (v2 <<< 4 ||| v3 >>> 2) % 256]
            else
              match base64Val c4 with
              | some v4 =>
                  some [(v1 <<< 2 ||| v2 >>> 4) % 256,
                    (v2 <<< 4 ||| v3 >>> 2) % 256,
                    (v3 <<< 6 ||| v4) % 256]
              | none => none
        | none => none
  | _, _ => none

/-- Decode base64 groups of four characters; padding may only close the
final group and the length must be a multiple of four. -/
def base64DecodeGroups : List Char → Option (List Nat)
  | [] => some []
  | c1 :: c2 :: c3 :: c4 :: rest =>
      match base64DecodeQuad c1 c2 c3 c4, rest with
      | some bs, [] => some bs
      | some bs, _ =>
          if c3 = '=' ∨ c4 = '=' then none
          else (base64DecodeGroups rest).map (fun tail => bs ++ tail)
      | none, _ => none
  | _ => none

/-- Model of `base64.StdEncoding.DecodeString`: `none` models a decode
error. -/
def base64StdDecode (s : String) : Option (List Nat) :=
  base64DecodeGroups s.data

/-- Model of `SessionAffinity.Score`.  The Go method reads
`request.Headers` without a nil check, so a nil request is a nil-pointer
dereference: the model returns `none` (panic) in that case.  Otherwise the
`x-session-token` header is base64-decoded (an invalid token is logged and
treated as absent, leaving the empty pod name) and the matching pod gets
score 1, all others 0. -/
def sessionAffinityScore (request : Option LLMRequestM)
    (pods : List String) : Option (List (String × ℚ)) :=
  match request with
  | none => none
  | some req =>
      let sessionToken := (aLookup req.headers "x-session-token").getD ""
      let podNameBytes : List Nat :=
        if sessionToken ≠ "" then
          match base64StdDecode sessionToken with
          | some decodedBytes => decodedBytes
          | none => []
        else []
      some (pods.map (fun pod =>
        (pod, if utf8Bytes pod = podNameBytes then (1 : ℚ) else 0)))

/-- Go `int(^uint(0) >> 1)`, the 64-bit maximum integer seed of
`getMinMax`. -/
def goMaxInt : Int := 2 ^ 63 - 1

/-- Model of `getMinMax` over the matched-pod hit counts. -/
def getMinMax (scores : List (String × Nat)) : Int × Int :=
  scores.foldl
    (fun mm e =>
      let mn := if (e.2 : Int) < mm.1 then (e.2 : Int) else mm.1
      let mx := if (e.2 : Int) > mm.2 then (e.2 : Int) else mm.2
      (mn, mx))
    (goMaxInt, -1)

/-- Model of `indexedScoresToNormalizedScoredPods`: pods with a recorded
score are mapped through `(score − min)/(max − min)` (all 1.0 when
min = max); pods without one score 0. -/
def indexedScoresToNormalizedScoredPods (pods : List String)
    (scores : List (String × Nat)) : List (String × ℚ) :=
  let mm := getMinMax scores
  pods.map (fun podKey =>
    match aLookup scores podKey with
    | some score =>
        if mm.1 = mm.2 then (podKey, (1 : ℚ))
        else (podKey,
          ((score : ℚ) - (mm.1 : ℚ)) / ((mm.2 : ℚ) - (mm.1 : ℚ)))
    | none => (podKey, (0 : ℚ)))

/-- Model of `PrefixAwareScorer.Score`: a nil request is checked and
yields the nil score map (`some []` — no panic); an empty match result
yields the nil map; otherwise the matches are normalised over the
candidate pods.  The method's update of the pod-to-prompt-hits bookkeeping
map does not affect the returned scores and is not modelled. -/
def prefixAwareScore (s : PrefixStoreM) (request : Option LLMRequestM)
    (pods : List String) : Option (List (String × ℚ)) :=
  match request with
  | none => some []
  | some req =>
      match findMatchingPods s req.prompt req.targetModel with
      | none => some []
      | some scores =>
          if scores.length = 0 then some []
          else some (indexedScoresToNormalizedScoredPods pods scores)

/-- C8 counterexample: `SessionAffinity.Score` is NOT total on a nil
request: it dereferences `request.Headers` and panics instead of returning
an empty mapping. -/
theorem sessionAffinity_nilRequest_counterexample :
    sessionAffinityScore none ["default/pod1"] = none ∧
    (none : Option (List (String × ℚ))) ≠ some [] := by
  exact ⟨rfl, by simp⟩

/-- C8 (amended): `PrefixAwareScorer.Score` checks for a nil request and
returns the nil mapping, contributing nothing to the aggregate;
`SessionAffinity.Score` performs no such check and dereferences the nil
request (a panic, modelled as `none`). -/
theorem scorers_nilRequest (s : PrefixStoreM) (pods pods2 : List String) :
    prefixAwareScore s none pods = some [] ∧
    sessionAffinityScore none pods2 = none :=
  ⟨rfl, rfl⟩

/-! ### Prefill-header pre-request hook

Model of `PrefillHeaderHandler.PreRequest`
(`pkg/plugins/pre-request/pd_prerequest.go`). -/

/-- The `x-prefiller-host-port` header name. -/
def prefillPodHeader : String := "x-prefiller-host-port"

/-- Model of `net.JoinHostPort`: hosts containing a colon are bracketed. -/
def joinHostPort (host port : String) : String :=
  if host.data.contains ':' then "[" ++ host ++ "]:" ++ port
  else host ++ ":" ++ port

/-- Model of `PrefillHeaderHandler.PreRequest`: an already-present
`x-prefiller-host-port` header is first cleared to the empty string; when
the scheduling result has no entry for the prefill profile the hook stops
there; otherwise the first prefill target pod's `address:port` is written
(the port is the inference-pool target port).  A nil run result or an
empty target-pod list panics in Go (`TargetPods[0]`), modelled as
`none`. -/
def preRequestPrefillHeader (prefillProfile : String)
    (headers : List (String × String))
    (profileResults : List (String × Option ProfileRunResultM))
    (targetPort : Int) : Option (List (String × String)) :=
  let headers1 := if (aLookup headers prefillPodHeader).isSome then
      aSet headers prefillPodHeader "" else headers
  match aLookup profileResults prefillProfile with
  | none => some headers1
  | some none => none
  | some (some rr) =>
      match rr.targetPods with
      | [] => none
      | pod :: _ =>
          some (aSet headers1 prefillPodHeader
            (joinHostPort pod.address (toString targetPort)))

/-- C9 counterexample: with no prefill entry the hook is NOT a no-op: an
already-present `x-prefiller-host-port` value is cleared to the empty
string, so the request's headers change. -/
theorem prefillHeader_counterexample :
    preRequestPrefillHeader "prefill"
      [("x-prefiller-host-port", "stale")] [] 80 =
      some [("x-prefiller-host-port", "")] ∧
    (some [("x-prefiller-host-port", "")] :
        Option (List (String × String))) ≠
      some [("x-prefiller-host-port", "stale")] := by
  exact ⟨by decide, by decide⟩

/-- C9 (amended): when the scheduling result has a run result for the
prefill profile with a first target pod, the hook writes that pod's
`host:port` (inference-pool target port, `net.JoinHostPort` form) into
`x-prefiller-host-port`, clearing any already-present value first and
leaving every other header unchanged; when there is no prefill entry the
hook's only effect is that an already-present `x-prefiller-host-port`
value is cleared to the empty string — headers without that key are
returned unchanged. -/
theorem prefillHeader_spec (prefillProfile : String)
    (headers : List (String × String))
    (results : List (String × Option ProfileRunResultM)) (targetPort : Int) :
    (∀ rr pod rest, aLookup results prefillProfile = some (some rr) →
      rr.targetPods = pod :: rest →
      ∃ hs, preRequestPrefillHeader prefillProfile headers results
          targetPort = some hs ∧
        aLookup hs prefillPodHeader =
          some (joinHostPort pod.address (toString targetPort)) ∧
        (∀ k, k ≠ prefillPodHeader → aLookup hs k = aLookup headers k)) ∧
    (aLookup results prefillProfile = none →
      (aLookup headers prefillPodHeader = none →
        preRequestPrefillHeader prefillProfile headers results targetPort =
          some headers) ∧
      (∀ v, aLookup headers prefillPodHeader = some v →
        preRequestPrefillHeader prefillProfile headers results targetPort =
          some (aSet headers prefillPodHeader ""))) := by
  constructor
  · intro rr pod rest hlk hpods
    refine ⟨aSet (if (aLookup headers prefillPodHeader).isSome then
        aSet headers prefillPodHeader "" else headers) prefillPodHeader
        (joinHostPort pod.address (toString targetPort)), ?_, ?_, ?_⟩
    · rw [preRequestPrefillHeader]
      simp only [hlk, hpods]
    · exact aLookup_aSet _ _ _
    · intro k hk
      rw [aLookup_aSet_ne _ _ _ _ hk]
      by_cases hpresent : (aLookup headers prefillPodHeader).isSome
      · rw [if_pos hpresent, aLookup_aSet_ne _ _ _ _ hk]
      · rw [if_neg hpresent]
  · intro hnone
    constructor
    · intro habsent
      rw [preRequestPrefillHeader]
      simp only [hnone, habsent]
      rfl
    · intro v hpresent
      rw [preRequestPrefillHeader]
      simp only [hnone, hpresent]
      rfl

/-- Closed instance of `prefillHeader_spec`: a prefill result writes the
pod's `host:port`; with no prefill entry and no present header the
headers come back unchanged. -/
theorem prefillHeader_spec_witness :
    (∃ hs, preRequestPrefillHeader "prefill" [("accept", "json")]
        [("prefill", some ⟨[⟨"default/p", "10.0.0.7"⟩]⟩)] 8000 = some hs ∧
      aLookup hs prefillPodHeader = some "10.0.0.7:8000" ∧
      aLookup hs "accept" = some "json") ∧
    preRequestPrefillHeader "prefill" [("accept", "json")] [] 8000 =
      some [("accept", "json")] := by
  have hm := prefillHeader_spec "prefill" [("accept", "json")]
    [("prefill", some ⟨[⟨"default/p", "10.0.0.7"⟩]⟩)] 8000
  rcases hm.1 ⟨[⟨"default/p", "10.0.0.7"⟩]⟩ ⟨"default/p", "10.0.0.7"⟩ []
    (by decide) rfl with ⟨hs, hok, hval, hoth⟩
  have hm2 := prefillHeader_spec "prefill" [("accept", "json")] [] 8000
  refine ⟨⟨hs, hok, ?_, ?_⟩, (hm2.2 rfl).1 (by decide)⟩
  · rw [hval]
    rfl
  · rw [hoth "accept" (by decide)]
    rfl

/-- Closed instance of `pdRoleFilters_spec`: a prefill-labelled pod passes
the prefill filter; a both-labelled pod passes the decode filter and is
dropped by the prefill filter. -/
theorem pdRoleFilters_spec_witness :
    ((⟨"p1", [("llm-d.ai/role", "prefill")]⟩ : PodM) ∈
      prefillFilter [⟨"p1", [("llm-d.ai/role", "prefill")]⟩,
        ⟨"p2", [("llm-d.ai/role", "both")]⟩]) ∧
    ((⟨"p2", [("llm-d.ai/role", "both")]⟩ : PodM) ∈
      decodeFilter [⟨"p1", [("llm-d.ai/role", "prefill")]⟩,
        ⟨"p2", [("llm-d.ai/role", "both")]⟩]) ∧
    ¬ ((⟨"p2", [("llm-d.ai/role", "both")]⟩ : PodM) ∈
      prefillFilter [⟨"p1", [("llm-d.ai/role", "prefill")]⟩,
        ⟨"p2", [("llm-d.ai/role", "both")]⟩]) := by
  have hm := pdRoleFilters_spec
    [⟨"p1", [("llm-d.ai/role", "prefill")]⟩,
     ⟨"p2", [("llm-d.ai/role", "both")]⟩]
  refine ⟨(hm.1 _).mpr ⟨by decide, by decide⟩,
    (hm.2.1 _).mpr ⟨by decide, by decide⟩, ?_⟩
  intro hmem
  have := ((hm.1 _).mp hmem).2
  simp [aLookup, roleLabel] at this
